import Mathlib

/-!
Verification of the gnorm schema model builder (database/drivers/postgres)
and the atomic generation engine, against a shallow embedding of the source.

The embedding mirrors the Go source:
* Go maps are modelled as association lists (`GoMap`) with Go map semantics
  for lookup and keyed assignment (`mlookup` / `minsert`).
* Go map *iteration order* is unspecified and can vary between two runs of
  the same program; the two places where `parse` ranges over a map to build
  an ordered output list are therefore parameterized by iteration-order
  oracles (arguments named piT and piI below).  A run of the Go program
  corresponds to some choice of oracle whose output is a permutation of the
  map's key set.
* A Go run-time panic (out-of-range string slice, nil-map / nil-pointer
  dereference) is modelled as `none` / `POut.panic`.
* Machine integers that the logic never computes with (column lengths,
  constraint positions) are carried as `Int`.
* Go strings are byte arrays and `len`/slicing count bytes; the embedding
  uses Lean `String` whose `length`/`drop` count characters.  The two
  coincide on the ASCII identifiers (schema, table, column, type names)
  these operations are applied to.
-/

set_option autoImplicit false

universe u v

/-- Association-list model of a Go `map[string]V`. -/
abbrev GoMap (V : Type u) : Type u := List (String × V)

namespace GoMap

/-- Go map read `m[k]` (the `v, ok := m[k]` form). -/
def mlookup {V : Type u} : GoMap V → String → Option V
  | [], _ => none
  | (k, v) :: rest, key => if k = key then some v else mlookup rest key

/-- Go map assignment `m[k] = v`: replaces the value when the key is
present, otherwise adds the key. -/
def minsert {V : Type u} : GoMap V → String → V → GoMap V
  | [], key, v => [(key, v)]
  | (k, w) :: rest, key, v =>
    if k = key then (k, v) :: rest else (k, w) :: minsert rest key v

/-- The key set of the map, in insertion order. -/
def mkeys {V : Type u} (m : GoMap V) : List String := m.map Prod.fst

end GoMap

open GoMap

namespace database

/-- `sql.NullString` as scanned by the generated query code. -/
structure NullString where
  String : String
  Valid : Bool
deriving DecidableEq

/-- `database.PrimaryKey`: one row of the primary-key introspection query. -/
structure PrimaryKey where
  SchemaName : String
  TableName : String
  ColumnName : String
  Name : String
deriving DecidableEq

/-- `database.ForeignKey`: one row of the foreign-key introspection query. -/
structure ForeignKey where
  SchemaName : String
  TableName : String
  ColumnName : String
  Name : String
  UniqueConstraintPosition : Int
  ForeignTableName : String
  ForeignColumnName : String
deriving DecidableEq

/-- `database.EnumValue`. -/
structure EnumValue where
  Name : String
  Value : Int
deriving DecidableEq

/-- `database.Enum`. -/
structure Enum where
  Name : String
  Values : List EnumValue
deriving DecidableEq

/-- `columns.Row`: one row of the column introspection query (the fields
`parse` and `toDBColumn` read). -/
structure ColumnRow where
  TableSchema : NullString
  TableName : NullString
  ColumnName : NullString
  IsNullable : NullString
  ColumnDefault : NullString
  CharacterMaximumLength : Int
  DataType : NullString
  UdtName : NullString
deriving DecidableEq

/-- `database.Column` with the fields `parse` populates; `Orig` holds the
raw row (Go stores it as `interface\x7b\x7d`). -/
structure Column where
  Name : String
  «Type» : String
  IsArray : Bool
  UserDefined : Bool
  Nullable : Bool
  HasDefault : Bool
  Length : Int
  IsPrimaryKey : Bool
  IsForeignKey : Bool
  ForeignKey : Option ForeignKey
  Orig : ColumnRow
deriving DecidableEq

/-- `database.Index`. -/
structure Index where
  Name : String
  Columns : List Column
deriving DecidableEq

/-- `database.Table` with the fields `parse` populates. -/
structure Table where
  Name : String
  Columns : List Column
  Indexes : List Index
deriving DecidableEq

/-- `database.Schema` with the fields `parse` populates. -/
structure Schema where
  Name : String
  Enums : List Enum
  Tables : List Table
deriving DecidableEq

/-- `database.Info`. -/
structure Info where
  Schemas : List Schema
deriving DecidableEq

end database

namespace postgres

open database

/-- `tables.Row`: one row of the table introspection query (the fields
`parse` reads). -/
structure TableRow where
  TableSchema : NullString
  TableName : NullString
deriving DecidableEq

/-- `indexResult` from the postgres driver. -/
structure indexResult where
  SchemaName : String
  TableName : String
  IndexName : String
  Columns : List String
deriving DecidableEq

/-- One raw row scanned by `queryIndexes` before the column-string split and
schema-prefix stripping. -/
structure RawIndexRow where
  SchemaName : String
  TableName : String
  IndexName : String
  ColumnsStr : String
deriving DecidableEq

/-- Outcome of `parse`: a built model, a returned error, or a Go run-time
panic. -/
inductive POut where
  | ok (info : Info)
  | error (e : String)
  | panic
deriving DecidableEq

/-- `toDBColumn` from the postgres driver.  On a column of DataType
`ARRAY`, the Go code takes `c.UdtName.String[1:]`, which panics (slice out
of range) when `UdtName` is empty; the panic is modelled as `none`. -/
def toDBColumn (c : ColumnRow) : Option Column :=
  let col : Column :=
    { Name := c.ColumnName.String
      «Type» := ""
      IsArray := false
      UserDefined := false
      Nullable := c.IsNullable.String == "YES"
      HasDefault := c.ColumnDefault.String != ""
      Length := c.CharacterMaximumLength
      IsPrimaryKey := false
      IsForeignKey := false
      ForeignKey := none
      Orig := c }
  let typ := c.DataType.String
  if typ = "ARRAY" then
    if 1 ≤ c.UdtName.String.length then
      some { col with IsArray := true, «Type» := c.UdtName.String.drop 1 }
    else
      none
  else if typ = "USER-DEFINED" then
    some { col with UserDefined := true, «Type» := c.UdtName.String }
  else
    some { col with «Type» := typ }

/-- Character-level recursion behind `splitComma`. -/
def splitCommaAux : List Char → String → List String
  | [], acc => [acc]
  | ch :: rest, acc =>
    if ch = ',' then acc :: splitCommaAux rest "" else splitCommaAux rest (acc.push ch)

/-- `strings.Split(s, ",")`: splits at every comma; the split of the empty
string is the one-element list of the empty string. -/
def splitComma (s : String) : List String :=
  splitCommaAux s.data ""

/-- The per-row processing of `queryIndexes`: split the comma-joined column
names, then for a row outside the `public` schema replace the table name by
`r.TableName[len(r.SchemaName)+1:]` (postgres prepends the schema name and
a dot).  The Go slice panics when the table name is shorter than
`len(SchemaName)+1`; the panic is modelled as `none`. -/
def processIndexRow (r : RawIndexRow) : Option indexResult :=
  let cols := splitComma r.ColumnsStr
  if r.SchemaName = "public" then
    some { SchemaName := r.SchemaName, TableName := r.TableName
           IndexName := r.IndexName, Columns := cols }
  else if r.SchemaName.length + 1 ≤ r.TableName.length then
    some { SchemaName := r.SchemaName
           TableName := r.TableName.drop (r.SchemaName.length + 1)
           IndexName := r.IndexName, Columns := cols }
  else
    none

/-- The scan loop of `queryIndexes` over the already-fetched rows. -/
def scanIndexRows : List RawIndexRow → Option (List indexResult)
  | [] => some []
  | r :: rest =>
    match processIndexRow r with
    | none => none
    | some x =>
      match scanIndexRows rest with
      | none => none
      | some xs => some (x :: xs)

/-- `queryIndexes`.  The source registers `defer rows.Close()` BEFORE
checking the error of `db.Query`; when the query fails, `rows` is nil and
the deferred `Close` dereferences a nil `*sql.Rows`, so the function panics
on its way out and the written `return nil, errors.WithMessage(err, ...)`
never reaches the caller.  A query error is therefore modelled as the panic
outcome `none`, as is the out-of-range slice in the row loop. -/
def queryIndexes (q : Except String (List RawIndexRow)) : Option (List indexResult) :=
  match q with
  | .error _ => none
  | .ok rows => scanIndexRows rows

/-- The nested map `schemas : map[schema]map[table][]*database.Column`
that `parse` builds. -/
abbrev SchemaMap := GoMap (GoMap (List Column))

/-- The nested map
`indexes : map[schema]map[table]map[indexName][]*database.Column`. -/
abbrev IdxMap := GoMap (GoMap (GoMap (List Column)))

/-- Lines 48-51 of the driver: one empty table map per requested schema. -/
def seedSchemas (schemaNames : List String) : SchemaMap :=
  schemaNames.foldl (fun m name => minsert m name []) []

/-- Lines 53-65: seed one (nil) column list per table row that survives the
filter; a row whose schema is not in the map is logged and skipped. -/
def seedStep (filterTables : String → String → Bool) (m : SchemaMap) (t : TableRow) : SchemaMap :=
  if !(filterTables t.TableSchema.String t.TableName.String) then m
  else
    match mlookup m t.TableSchema.String with
    | none => m
    | some s => minsert m t.TableSchema.String (minsert s t.TableName.String [])

/-- Lines 72-91, one column row: filtered-out and referentially
inconsistent rows are skipped; otherwise the converted column is appended
to its table.  `none` is the `toDBColumn` panic. -/
def columnStep (filterTables : String → String → Bool) (m : SchemaMap) (c : ColumnRow) :
    Option SchemaMap :=
  if !(filterTables c.TableSchema.String c.TableName.String) then some m
  else
    match mlookup m c.TableSchema.String with
    | none => some m
    | some schema =>
      match mlookup schema c.TableName.String with
      | none => some m
      | some cols =>
        match toDBColumn c with
        | none => none
        | some col =>
          some (minsert m c.TableSchema.String
            (minsert schema c.TableName.String (cols ++ [col])))

/-- The column loop of `parse`. -/
def columnPass (filterTables : String → String → Bool) (m : SchemaMap) :
    List ColumnRow → Option SchemaMap
  | [] => some m
  | c :: rest =>
    match columnStep filterTables m c with
    | none => none
    | some m2 => columnPass filterTables m2 rest

/-- Lines 98-121, one primary-key row: sets `IsPrimaryKey` on every column
of the (seeded, unfiltered) table whose name matches the row. -/
def pkStep (filterTables : String → String → Bool) (m : SchemaMap) (pk : PrimaryKey) : SchemaMap :=
  if !(filterTables pk.SchemaName pk.TableName) then m
  else
    match mlookup m pk.SchemaName with
    | none => m
    | some schema =>
      match mlookup schema pk.TableName with
      | none => m
      | some table =>
        minsert m pk.SchemaName (minsert schema pk.TableName
          (table.map fun col =>
            if pk.ColumnName = col.Name then { col with IsPrimaryKey := true } else col))

/-- Lines 127-151, one foreign-key row: sets `IsForeignKey` and stores the
row on every column of the referencing table whose name matches; the
referenced table and column names are never looked up. -/
def fkStep (filterTables : String → String → Bool) (m : SchemaMap) (fk : ForeignKey) : SchemaMap :=
  if !(filterTables fk.SchemaName fk.TableName) then m
  else
    match mlookup m fk.SchemaName with
    | none => m
    | some schema =>
      match mlookup schema fk.TableName with
      | none => m
      | some table =>
        minsert m fk.SchemaName (minsert schema fk.TableName
          (table.map fun col =>
            if fk.ColumnName = col.Name then
              { col with IsForeignKey := true, ForeignKey := some fk }
            else col))

/-- Line 184-187: the per-row name lookup of the owning table's columns. -/
def mkColumnMap (table : List Column) : GoMap Column :=
  table.foldl (fun cm c => minsert cm c.Name c) []

/-- Lines 189-197: resolve every named index column; a single unknown name
makes the whole row resolve to `none` (`continue outer`). -/
def resolveColumns (cm : GoMap Column) : List String → Option (List Column)
  | [] => some []
  | c :: rest =>
    match mlookup cm c with
    | none => none
    | some col =>
      match resolveColumns cm rest with
      | none => none
      | some cols => some (col :: cols)

/-- Lines 165-212, one index row. -/
def indexStep (filterTables : String → String → Bool) (schemas : SchemaMap)
    (indexes : IdxMap) (r : indexResult) : IdxMap :=
  if !(filterTables r.SchemaName r.TableName) then indexes
  else
    match mlookup schemas r.SchemaName with
    | none => indexes
    | some schema =>
      match mlookup schema r.TableName with
      | none => indexes
      | some table =>
        let columnMap := mkColumnMap table
        match resolveColumns columnMap r.Columns with
        | none => indexes
        | some columns =>
          let schemaIndex := (mlookup indexes r.SchemaName).getD []
          let tableIndex := (mlookup schemaIndex r.TableName).getD []
          let cur := (mlookup tableIndex r.IndexName).getD []
          minsert indexes r.SchemaName (minsert schemaIndex r.TableName
            (minsert tableIndex r.IndexName (cur ++ columns)))

/-- Lines 226-231 for one table: the Indexes list the assembly attaches to
the table named `tname`.  The order in which the inner
`for iname, columns := range index` loop visits the index names is map
iteration order, supplied by the oracle `piI`. -/
def mkIndexes (piI : String → String → List String → List String)
    (idxS : GoMap (GoMap (List Column))) (schemaName tname : String) : List Index :=
  match mlookup idxS tname with
  | none => []
  | some tableIndex =>
    (piI schemaName tname (mkeys tableIndex)).filterMap fun iname =>
      (mlookup tableIndex iname).map fun cols => { Name := iname, Columns := cols }

/-- The Table record the assembly builds for one table (Go lines 224 and
227-231: the struct literal plus the Indexes assignment). -/
def mkTbl (piI : String → String → List String → List String)
    (idxS : GoMap (GoMap (List Column))) (schemaName tname : String)
    (cols : List Column) : Table :=
  { Name := tname, Columns := cols, Indexes := mkIndexes piI idxS schemaName tname }

/-- Lines 214-237 for one schema.  The guard models the nil-pointer panic
at `dbtables[tname].Indexes = ...`, which fires when the index map holds a
table name that was never seeded; `piT` supplies the iteration order of the
final `for _, table := range dbtables` loop. -/
def assembleSchema (schemas : SchemaMap) (enums : GoMap (List Enum)) (indexes : IdxMap)
    (piT : String → List String → List String)
    (piI : String → String → List String → List String)
    (schemaName : String) : Option Schema :=
  let tables := (mlookup schemas schemaName).getD []
  let idxS := (mlookup indexes schemaName).getD []
  if idxS.all (fun p => (mlookup tables p.1).isSome) then
    some { Name := schemaName
           Enums := (mlookup enums schemaName).getD []
           Tables := (piT schemaName (mkeys tables)).filterMap fun tname =>
             (mlookup tables tname).map fun cols =>
               mkTbl piI idxS schemaName tname cols }
  else
    none

/-- The `for _, schema := range schemaNames` assembly loop. -/
def assembleSchemas (schemas : SchemaMap) (enums : GoMap (List Enum)) (indexes : IdxMap)
    (piT : String → List String → List String)
    (piI : String → String → List String → List String) :
    List String → Option (List Schema)
  | [] => some []
  | n :: rest =>
    match assembleSchema schemas enums indexes piT piI n with
    | none => none
    | some s =>
      match assembleSchemas schemas enums indexes piT piI rest with
      | none => none
      | some ss => some (s :: ss)

/-- The map after seeding: lines 48-65. -/
def seededMap (schemaNames : List String) (filterTables : String → String → Bool)
    (tableRows : List TableRow) : SchemaMap :=
  tableRows.foldl (seedStep filterTables) (seedSchemas schemaNames)

/-- `parse` from the postgres driver, over the results of the six
introspection queries.  `tablesQ` .. `enumsQ` are the values the query
helpers hand back (each `Except` carrying a query/scan failure);
`idxQ` is the raw input of `queryIndexes`, whose body is part of the
verified code.  `piT`/`piI` are the map iteration-order oracles. -/
def parse (schemaNames : List String) (filterTables : String → String → Bool)
    (tablesQ : Except String (List TableRow))
    (columnsQ : Except String (List ColumnRow))
    (pksQ : Except String (List PrimaryKey))
    (fksQ : Except String (List ForeignKey))
    (enumsQ : Except String (GoMap (List Enum)))
    (idxQ : Except String (List RawIndexRow))
    (piT : String → List String → List String)
    (piI : String → String → List String → List String) : POut :=
  match tablesQ with
  | .error e => .error e
  | .ok tableRows =>
    let m1 := seededMap schemaNames filterTables tableRows
    match columnsQ with
    | .error e => .error e
    | .ok columnRows =>
      match columnPass filterTables m1 columnRows with
      | none => .panic
      | some m2 =>
        match pksQ with
        | .error e => .error e
        | .ok pkRows =>
          let m3 := pkRows.foldl (pkStep filterTables) m2
          match fksQ with
          | .error e => .error e
          | .ok fkRows =>
            let m4 := fkRows.foldl (fkStep filterTables) m3
            match enumsQ with
            | .error e => .error e
            | .ok enums =>
              match queryIndexes idxQ with
              | none => .panic
              | some idxRows =>
                let idx := idxRows.foldl (indexStep filterTables m4) []
                match assembleSchemas m4 enums idx piT piI schemaNames with
                | none => .panic
                | some ss => .ok { Schemas := ss }


/-- The schema/table key structure of the builder state: per schema, the
list of seeded table names.  The passes after seeding only rewrite column
lists, so this is invariant. -/
def shape (m : SchemaMap) : GoMap (List String) :=
  m.map fun p => (p.1, mkeys p.2)

/-- Whether the (schema, table) pair is present in the builder state — the
condition under which the per-row loops do not skip the row as a
referential inconsistency. -/
def tableSeen (m : SchemaMap) (s t : String) : Bool :=
  match mlookup m s with
  | none => false
  | some sm => (mlookup sm t).isSome

/-- Builder-state well-formedness: each schema's table map has distinct
keys (true of every Go map; here an invariant of `minsert`). -/
def WF (m : SchemaMap) : Prop :=
  ∀ p ∈ m, (mkeys p.2).Nodup

/-- Index-map well-formedness: each per-table index-name map has distinct
keys. -/
def IdxWF (idx : IdxMap) : Prop :=
  ∀ p ∈ idx, ∀ q ∈ p.2, (mkeys q.2).Nodup

/-- Every entry of the index map refers to a seeded (schema, table) pair
of the builder state — the invariant that protects the assembly loop's
`dbtables[tname]` dereference. -/
def IdxConsistent (m : SchemaMap) (idx : IdxMap) : Prop :=
  ∀ p ∈ idx, ∀ q ∈ p.2, tableSeen m p.1 q.1 = true

/-- Referencing-side consistency of stored foreign keys: every flagged
column of the builder state carries a constraint row that names exactly
its own schema, table and column. -/
def FKC (m : SchemaMap) : Prop :=
  ∀ p ∈ m, ∀ q ∈ p.2, ∀ c ∈ q.2, c.IsForeignKey = true →
    ∃ fk, c.ForeignKey = some fk ∧ fk.SchemaName = p.1 ∧ fk.TableName = q.1 ∧
      fk.ColumnName = c.Name

/-- The state after the seed, column, primary-key and foreign-key passes
(`none` when a column row panics inside `toDBColumn`). -/
def builtMap (schemaNames : List String) (filterTables : String → String → Bool)
    (tableRows : List TableRow) (columnRows : List ColumnRow)
    (pkRows : List PrimaryKey) (fkRows : List ForeignKey) : Option SchemaMap :=
  match columnPass filterTables (seededMap schemaNames filterTables tableRows) columnRows with
  | none => none
  | some m2 =>
    some (fkRows.foldl (fkStep filterTables) (pkRows.foldl (pkStep filterTables) m2))

/-- Insertion step of the string insertion sort. -/
def sinsert (x : String) : List String → List String
  | [] => [x]
  | y :: ys => if x ≤ y then x :: y :: ys else y :: sinsert x ys

/-- Insertion sort on strings, used only to canonicalize map-iteration
order when comparing two runs. -/
def ssort : List String → List String
  | [] => []
  | x :: xs => sinsert x (ssort xs)

/-- Reorder a keyed list into sorted-name order. -/
def canonByName {T : Type u} (name : T → String) (l : List T) : List T :=
  (ssort (l.map name)).filterMap fun n => l.find? fun t => name t == n

/-- Sort a table's Indexes by index name. -/
def canonTable (t : Table) : Table :=
  { t with Indexes := canonByName (fun i => i.Name) t.Indexes }

/-- Sort a schema's Tables by table name (and each table's Indexes). -/
def canonSchema (s : Schema) : Schema :=
  { s with Tables := (canonByName (fun t => t.Name) s.Tables).map canonTable }

/-- Canonicalize the parts of the model whose order comes from map
iteration: Tables within a Schema and Indexes within a Table. -/
def canonInfo (i : Info) : Info :=
  ⟨i.Schemas.map canonSchema⟩

/-- `canonInfo` on a successful outcome. -/
def canonPOut : POut → POut
  | .ok i => .ok (canonInfo i)
  | .error e => .error e
  | .panic => .panic

end postgres

namespace run

/-- An in-memory model of the output directory: path to file contents. -/
abbrev FileSystem := GoMap String

/-- Modelled from the spec: `genFile`, the per-unit step of the Atomic
Generation Engine, whose source is not under src/ (only its test
`TestAtomicGenerate` is).  Per spec section 4.4: the contents template is
rendered into an in-memory buffer; only after rendering succeeds is the
buffer written to the destination path, replacing any existing file
wholesale; on a rendering failure the destination file is not touched at
all and the error is returned.  `render` is the outcome of executing the
contents template against the unit's context. -/
def genFile (fs : FileSystem) (filename : String) (render : Except String String) :
    Except String Unit × FileSystem :=
  match render with
  | .error e => (.error e, fs)
  | .ok contents => (.ok (), GoMap.minsert fs filename contents)

end run

namespace data

/-- Modelled from the spec: the Template Data Assembler (its source is not
under src/; only the `data` type declarations are) derives a Table's
`PrimaryKeys` list as the ordered sublist of the Table's Columns whose
`IsPrimaryKey` flag is set — the spec states the flag and the list are
"derived, not independently settable". -/
def PrimaryKeys (t : database.Table) : List database.Column :=
  t.Columns.filter fun c => c.IsPrimaryKey

end data

namespace fixtures

/-- Accept-everything table filter. -/
def filterAll : String → String → Bool := fun _ _ => true

/-- Map iteration order that happens to visit keys in insertion order. -/
def idT : String → List String → List String := fun _ ks => ks

/-- Map iteration order that happens to visit keys in reverse insertion
order (Go map iteration order is unspecified and varies between runs). -/
def revT : String → List String → List String := fun _ ks => ks.reverse

/-- Inner-map iteration order, insertion order. -/
def idI : String → String → List String → List String := fun _ _ ks => ks

/-- Table row `public.users`. -/
def usersTR : postgres.TableRow := ⟨⟨"public", true⟩, ⟨"users", true⟩⟩

/-- Table row `public.orders`. -/
def ordersTR : postgres.TableRow := ⟨⟨"public", true⟩, ⟨"orders", true⟩⟩

/-- Column row `public.users.id int4`. -/
def idCR : database.ColumnRow :=
  ⟨⟨"public", true⟩, ⟨"users", true⟩, ⟨"id", true⟩, ⟨"NO", true⟩, ⟨"", true⟩, 0,
   ⟨"int4", true⟩, ⟨"int4", true⟩⟩

/-- The column `toDBColumn` builds from `idCR`. -/
def idCol : database.Column :=
  ⟨"id", "int4", false, false, false, false, 0, false, false, none, idCR⟩

/-- A foreign-key row on `public.users.id` whose referenced table `ghost`
exists nowhere in the introspected schemas. -/
def ghostFK : database.ForeignKey := ⟨"public", "users", "id", "fk_ghost", 0, "ghost", "gid"⟩

/-- A primary-key row for `public.users.id`. -/
def usersPK : database.PrimaryKey := ⟨"public", "users", "id", "users_pkey"⟩

/-- An index row over `users` listing the column `id` twice. -/
def dupIdxRow : postgres.RawIndexRow := ⟨"public", "users", "users_idx", "id,id"⟩

/-- Filter that only admits `public.users`. -/
def filterUsersOnly : String → String → Bool := fun sch tbl =>
  sch == "public" && tbl == "users"

/-- Column row `public.orders.oid int4`. -/
def oidCR : database.ColumnRow :=
  ⟨⟨"public", true⟩, ⟨"orders", true⟩, ⟨"oid", true⟩, ⟨"NO", true⟩, ⟨"", true⟩, 0,
   ⟨"int4", true⟩, ⟨"int4", true⟩⟩

/-- Primary-key row for `public.orders.oid`. -/
def ordersPK : database.PrimaryKey := ⟨"public", "orders", "oid", "orders_pkey"⟩

/-- Index raw row over `public.orders`. -/
def ordersIdx : postgres.RawIndexRow := ⟨"public", "orders", "orders_idx", "oid"⟩

/-- Column row for a never-seeded table `public.ghost`. -/
def ghostCR : database.ColumnRow :=
  ⟨⟨"public", true⟩, ⟨"ghost", true⟩, ⟨"gid", true⟩, ⟨"NO", true⟩, ⟨"", true⟩, 0,
   ⟨"int4", true⟩, ⟨"int4", true⟩⟩

/-- Primary-key row naming the never-seeded table `public.ghost`. -/
def ghostPK : database.PrimaryKey := ⟨"public", "ghost", "gid", "ghost_pkey"⟩

/-- Foreign-key row whose referencing table `public.ghost` is never
seeded. -/
def ghostTableFK : database.ForeignKey := ⟨"public", "ghost", "gid", "fk_g", 0, "users", "id"⟩

/-- Index raw row naming the never-seeded table `public.ghost`. -/
def ghostIdx : postgres.RawIndexRow := ⟨"public", "ghost", "ghost_idx", "gid"⟩

/-- The users.id column after the dangling foreign key is recorded. -/
def idColFK : database.Column :=
  { idCol with IsForeignKey := true, ForeignKey := some ghostFK }

/-- Index raw row over `users` naming an unknown column. -/
def badColIdx : postgres.RawIndexRow := ⟨"public", "users", "bad_idx", "id,nope"⟩

end fixtures

/-- C1: if rendering the contents template for a generation unit fails,
`genFile` returns the error and leaves every path of the filesystem — in
particular the unit's destination path — exactly as it was: a destination
that held content C still holds exactly C, and a destination that did not
exist is still absent. -/
theorem genFile_render_failure_atomic (fs : run.FileSystem) (filename p e : String) :
    (run.genFile fs filename (Except.error e)).1 = Except.error e ∧
    GoMap.mlookup (run.genFile fs filename (Except.error e)).2 p = GoMap.mlookup fs p :=
  ⟨rfl, rfl⟩

/-- A non-empty string has at least one character. -/
theorem one_le_length_of_ne_empty (s : String) (h : s ≠ "") : 1 ≤ s.length := by
  cases s with
  | mk l =>
    cases l with
    | nil => exact absurd (by decide) h
    | cons ch cs =>
      show 1 ≤ (ch :: cs).length
      simp

/-- C9: on a column row whose DataType is ARRAY, `toDBColumn` is total only
when UdtName is non-empty: then it yields the column with `IsArray` set and
the type equal to UdtName with its first character removed; on an empty
UdtName it panics (out-of-range slice), modelled as `none`. -/
theorem toDBColumn_array_precondition (c : database.ColumnRow) :
    (c.DataType.String = "ARRAY" → c.UdtName.String ≠ "" →
      postgres.toDBColumn c = some
        { Name := c.ColumnName.String
          «Type» := c.UdtName.String.drop 1
          IsArray := true
          UserDefined := false
          Nullable := c.IsNullable.String == "YES"
          HasDefault := c.ColumnDefault.String != ""
          Length := c.CharacterMaximumLength
          IsPrimaryKey := false
          IsForeignKey := false
          ForeignKey := none
          Orig := c }) ∧
    (c.DataType.String = "ARRAY" → c.UdtName.String = "" →
      postgres.toDBColumn c = none) := by
  constructor
  · intro hdt hne
    have hlen : 1 ≤ c.UdtName.String.length := one_le_length_of_ne_empty _ hne
    simp [postgres.toDBColumn, hdt, hlen]
  · intro hdt hem
    simp [postgres.toDBColumn, hdt, hem]

/-- Witness for C9 at concrete inputs: an ARRAY column with UdtName
`_int4` converts to an array column of type `int4`; an ARRAY column with
empty UdtName panics. -/
theorem toDBColumn_array_precondition_witness :
    postgres.toDBColumn
      { TableSchema := ⟨"public", true⟩, TableName := ⟨"users", true⟩
        ColumnName := ⟨"tags", true⟩, IsNullable := ⟨"NO", true⟩
        ColumnDefault := ⟨"", true⟩, CharacterMaximumLength := 0
        DataType := ⟨"ARRAY", true⟩, UdtName := ⟨"_int4", true⟩ } = some
      { Name := "tags", «Type» := "int4", IsArray := true, UserDefined := false
        Nullable := false, HasDefault := false, Length := 0
        IsPrimaryKey := false, IsForeignKey := false, ForeignKey := none
        Orig := { TableSchema := ⟨"public", true⟩, TableName := ⟨"users", true⟩
                  ColumnName := ⟨"tags", true⟩, IsNullable := ⟨"NO", true⟩
                  ColumnDefault := ⟨"", true⟩, CharacterMaximumLength := 0
                  DataType := ⟨"ARRAY", true⟩, UdtName := ⟨"_int4", true⟩ } } ∧
    postgres.toDBColumn
      { TableSchema := ⟨"public", true⟩, TableName := ⟨"users", true⟩
        ColumnName := ⟨"bad", true⟩, IsNullable := ⟨"NO", true⟩
        ColumnDefault := ⟨"", true⟩, CharacterMaximumLength := 0
        DataType := ⟨"ARRAY", true⟩, UdtName := ⟨"", true⟩ } = none := by
  constructor
  · have h := (toDBColumn_array_precondition
      { TableSchema := ⟨"public", true⟩, TableName := ⟨"users", true⟩
        ColumnName := ⟨"tags", true⟩, IsNullable := ⟨"NO", true⟩
        ColumnDefault := ⟨"", true⟩, CharacterMaximumLength := 0
        DataType := ⟨"ARRAY", true⟩, UdtName := ⟨"_int4", true⟩ }).1 rfl (by decide)
    rw [h]
    decide
  · exact (toDBColumn_array_precondition
      { TableSchema := ⟨"public", true⟩, TableName := ⟨"users", true⟩
        ColumnName := ⟨"bad", true⟩, IsNullable := ⟨"NO", true⟩
        ColumnDefault := ⟨"", true⟩, CharacterMaximumLength := 0
        DataType := ⟨"ARRAY", true⟩, UdtName := ⟨"", true⟩ }).2 rfl rfl

/-- C10: `queryIndexes` strips the schema prefix from a scanned table name
only for rows outside the `public` schema, by dropping the first
`len(SchemaName)+1` characters; this is well-defined only when the table
name is at least that long, and panics (out-of-range slice, modelled as
`none`) otherwise; rows of the `public` schema keep their table name. -/
theorem queryIndexes_schema_strip_precondition (r : postgres.RawIndexRow) :
    (r.SchemaName = "public" →
      postgres.processIndexRow r = some
        { SchemaName := r.SchemaName, TableName := r.TableName
          IndexName := r.IndexName, Columns := postgres.splitComma r.ColumnsStr }) ∧
    (r.SchemaName ≠ "public" → r.SchemaName.length + 1 ≤ r.TableName.length →
      postgres.processIndexRow r = some
        { SchemaName := r.SchemaName
          TableName := r.TableName.drop (r.SchemaName.length + 1)
          IndexName := r.IndexName, Columns := postgres.splitComma r.ColumnsStr }) ∧
    (r.SchemaName ≠ "public" → r.TableName.length < r.SchemaName.length + 1 →
      postgres.processIndexRow r = none) := by
  refine ⟨fun h => ?_, fun h hlen => ?_, fun h hlen => ?_⟩
  · simp [postgres.processIndexRow, h]
  · simp [postgres.processIndexRow, h, hlen]
  · simp [postgres.processIndexRow, h, Nat.not_le.mpr hlen]

/-- Witness for C10 at concrete rows: a `public` row is unchanged, a
`myschema.users` row is stripped to `users`, and a row whose table name is
shorter than the schema prefix panics. -/
theorem queryIndexes_schema_strip_precondition_witness :
    postgres.processIndexRow ⟨"public", "users", "users_pkey", "id"⟩ =
      some ⟨"public", "users", "users_pkey", ["id"]⟩ ∧
    postgres.processIndexRow ⟨"myschema", "myschema.users", "users_pkey", "id,name"⟩ =
      some ⟨"myschema", "users", "users_pkey", ["id", "name"]⟩ ∧
    postgres.processIndexRow ⟨"myschema", "users", "users_pkey", "id"⟩ = none := by
  refine ⟨?_, ?_, ?_⟩
  · have h := (queryIndexes_schema_strip_precondition
      ⟨"public", "users", "users_pkey", "id"⟩).1 rfl
    rw [h]
    decide
  · have h := (queryIndexes_schema_strip_precondition
      ⟨"myschema", "myschema.users", "users_pkey", "id,name"⟩).2.1 (by decide) (by decide)
    rw [h]
    decide
  · exact (queryIndexes_schema_strip_precondition
      ⟨"myschema", "users", "users_pkey", "id"⟩).2.2 (by decide) (by decide)


/-- C7 (code bug): when the index introspection query fails, `parse` does
not return the error: `queryIndexes` registers `defer rows.Close()` before
checking the query error, and `Close` on the resulting nil `*sql.Rows`
panics, so the run dies with a nil-pointer panic instead of the documented
error return.  The other queries do propagate their error, shown here for
the tables query. -/
theorem queryIndexes_error_panics :
    postgres.parse ["public"] fixtures.filterAll (.ok []) (.ok []) (.ok []) (.ok [])
        (.ok []) (.error "pq: syntax error") fixtures.idT fixtures.idI = postgres.POut.panic ∧
    postgres.parse ["public"] fixtures.filterAll (.error "pq: connection refused") (.ok [])
        (.ok []) (.ok []) (.ok []) (.ok []) fixtures.idT fixtures.idI =
      postgres.POut.error "pq: connection refused" := by
  constructor
  · decide
  · decide

/-- C8: in every model built by `parse`, a column's `IsPrimaryKey` flag is
true exactly when the column is in its table's (spec-modelled, derived)
PrimaryKeys list. -/
theorem isPrimaryKey_iff_mem_primaryKeys
    (schemaNames : List String) (filterTables : String → String → Bool)
    (tablesQ : Except String (List postgres.TableRow))
    (columnsQ : Except String (List database.ColumnRow))
    (pksQ : Except String (List database.PrimaryKey))
    (fksQ : Except String (List database.ForeignKey))
    (enumsQ : Except String (GoMap (List database.Enum)))
    (idxQ : Except String (List postgres.RawIndexRow))
    (piT : String → List String → List String)
    (piI : String → String → List String → List String)
    (info : database.Info)
    (h : postgres.parse schemaNames filterTables tablesQ columnsQ pksQ fksQ enumsQ idxQ
          piT piI = postgres.POut.ok info)
    (sch : database.Schema) (hs : sch ∈ info.Schemas)
    (t : database.Table) (ht : t ∈ sch.Tables)
    (c : database.Column) (hc : c ∈ t.Columns) :
    c.IsPrimaryKey = true ↔ c ∈ data.PrimaryKeys t := by
  unfold data.PrimaryKeys
  rw [List.mem_filter]
  exact ⟨fun hp => ⟨hc, hp⟩, fun hmem => hmem.2⟩

/-- Witness for C8: a concrete run with one table, one column and one
primary-key row; the built column has the flag set and is in the derived
PrimaryKeys list. -/
theorem isPrimaryKey_iff_mem_primaryKeys_witness :
    (({ fixtures.idCol with IsPrimaryKey := true } : database.Column).IsPrimaryKey = true ↔
      { fixtures.idCol with IsPrimaryKey := true } ∈ data.PrimaryKeys
        ⟨"users", [{ fixtures.idCol with IsPrimaryKey := true }], []⟩) :=
  isPrimaryKey_iff_mem_primaryKeys ["public"] fixtures.filterAll
    (.ok [fixtures.usersTR]) (.ok [fixtures.idCR]) (.ok [fixtures.usersPK]) (.ok [])
    (.ok []) (.ok []) fixtures.idT fixtures.idI
    ⟨[⟨"public", [], [⟨"users", [{ fixtures.idCol with IsPrimaryKey := true }], []⟩]⟩]⟩
    (by decide)
    ⟨"public", [], [⟨"users", [{ fixtures.idCol with IsPrimaryKey := true }], []⟩]⟩ (by decide)
    ⟨"users", [{ fixtures.idCol with IsPrimaryKey := true }], []⟩ (by decide)
    { fixtures.idCol with IsPrimaryKey := true } (by decide)

/-- Counterexample for C2: the ordering of the Tables list is NOT a
function of the query-result order alone.  The final assembly loop ranges
over the Go map `dbtables`; with the same query results, an iteration
order visiting the two seeded tables in insertion order and one visiting
them in reverse order (both legitimate Go map iteration orders — each a
permutation of the key set) produce different models. -/
theorem parse_order_counterexample :
    postgres.parse ["public"] fixtures.filterAll
        (.ok [fixtures.usersTR, fixtures.ordersTR]) (.ok []) (.ok []) (.ok [])
        (.ok []) (.ok []) fixtures.idT fixtures.idI ≠
    postgres.parse ["public"] fixtures.filterAll
        (.ok [fixtures.usersTR, fixtures.ordersTR]) (.ok []) (.ok []) (.ok [])
        (.ok []) (.ok []) fixtures.revT fixtures.idI := by
  decide

/-- Counterexample for C3: an index row whose column list holds a
DUPLICATE of a resolvable column name is NOT omitted: the index
`users_idx` over `id,id` is recorded, with the column listed twice.  (Only
an unresolvable column name drops the row.) -/
theorem duplicate_index_column_kept_counterexample :
    postgres.parse ["public"] fixtures.filterAll
        (.ok [fixtures.usersTR]) (.ok [fixtures.idCR]) (.ok []) (.ok [])
        (.ok []) (.ok [fixtures.dupIdxRow]) fixtures.idT fixtures.idI =
    postgres.POut.ok ⟨[⟨"public", [],
      [⟨"users", [fixtures.idCol],
        [⟨"users_idx", [fixtures.idCol, fixtures.idCol]⟩]⟩]⟩]⟩ := by
  decide

/-- Counterexample for C4: a foreign key whose REFERENCED table does not
exist anywhere in the model survives model-building: the column
`users.id` is flagged as a foreign key and carries the constraint row
naming the non-existent table `ghost`, and no table `ghost` is in the
model. -/
theorem dangling_foreign_key_counterexample :
    postgres.parse ["public"] fixtures.filterAll
        (.ok [fixtures.usersTR]) (.ok [fixtures.idCR]) (.ok []) (.ok [fixtures.ghostFK])
        (.ok []) (.ok []) fixtures.idT fixtures.idI =
    postgres.POut.ok ⟨[⟨"public", [],
      [⟨"users",
        [{ fixtures.idCol with IsForeignKey := true, ForeignKey := some fixtures.ghostFK }],
        []⟩]⟩]⟩ := by
  decide

namespace GoMap

variable {V : Type u}

/-- Reading the key just assigned gives the assigned value. -/
theorem mlookup_minsert_self (m : GoMap V) (k : String) (v : V) :
    mlookup (minsert m k v) k = some v := by
  induction m with
  | nil => simp [minsert, mlookup]
  | cons p rest ih =>
    obtain ⟨k1, v1⟩ := p
    by_cases h : k1 = k
    · simp [minsert, h, mlookup]
    · simp [minsert, h, mlookup, ih]

/-- Assignment does not change other keys. -/
theorem mlookup_minsert_ne (m : GoMap V) (k k' : String) (v : V) (h : k ≠ k') :
    mlookup (minsert m k v) k' = mlookup m k' := by
  induction m with
  | nil => simp [minsert, mlookup, h]
  | cons p rest ih =>
    obtain ⟨k1, v1⟩ := p
    by_cases h1 : k1 = k
    · subst h1
      simp [minsert, mlookup, h]
    · simp [minsert, h1, mlookup, ih]

/-- Assigning a key that is already present does not change the key list. -/
theorem mkeys_minsert_some (m : GoMap V) (k : String) (w v : V) (h : mlookup m k = some w) :
    mkeys (minsert m k v) = mkeys m := by
  induction m with
  | nil => simp [mlookup] at h
  | cons p rest ih =>
    obtain ⟨k1, v1⟩ := p
    by_cases h1 : k1 = k
    · simp [minsert, h1, mkeys]
    · rw [mlookup, if_neg h1] at h
      simp [minsert, h1, mkeys] at ih ⊢
      exact ih h

/-- A key is readable exactly when it is in the key list. -/
theorem mlookup_isSome_iff_mem (m : GoMap V) (k : String) :
    (mlookup m k).isSome ↔ k ∈ mkeys m := by
  induction m with
  | nil => simp [mlookup, mkeys]
  | cons p rest ih =>
    obtain ⟨k1, v1⟩ := p
    by_cases h : k1 = k
    · simp [mlookup, h, mkeys]
    · simp [mlookup, h, mkeys, ih, Ne.symm h]

/-- A successful read is a member of the map. -/
theorem mem_of_mlookup_eq (m : GoMap V) (k : String) (v : V) (h : mlookup m k = some v) :
    (k, v) ∈ m := by
  induction m with
  | nil => simp [mlookup] at h
  | cons p rest ih =>
    obtain ⟨k1, v1⟩ := p
    by_cases h1 : k1 = k
    · subst h1
      rw [mlookup, if_pos rfl] at h
      cases h
      exact List.mem_cons_self _ _
    · rw [mlookup, if_neg h1] at h
      exact List.mem_cons_of_mem _ (ih h)

/-- Any entry of `minsert m k v` is the new entry or an old one. -/
theorem mem_minsert (m : GoMap V) (k : String) (v : V) (p : String × V)
    (h : p ∈ minsert m k v) : p = (k, v) ∨ p ∈ m := by
  induction m with
  | nil =>
    simp [minsert] at h
    exact Or.inl h
  | cons q rest ih =>
    obtain ⟨k1, v1⟩ := q
    by_cases h1 : k1 = k
    · subst h1
      rw [minsert, if_pos rfl] at h
      rcases List.mem_cons.mp h with h2 | h2
      · exact Or.inl h2
      · exact Or.inr (List.mem_cons_of_mem _ h2)
    · rw [minsert, if_neg h1] at h
      rcases List.mem_cons.mp h with h2 | h2
      · exact Or.inr (h2 ▸ List.mem_cons_self _ _)
      · rcases ih h2 with h3 | h3
        · exact Or.inl h3
        · exact Or.inr (List.mem_cons_of_mem _ h3)

/-- Any key of `minsert m k v` is `k` or an old key. -/
theorem mem_mkeys_minsert (m : GoMap V) (k : String) (v : V) (x : String)
    (h : x ∈ mkeys (minsert m k v)) : x = k ∨ x ∈ mkeys m := by
  simp only [mkeys, List.mem_map] at h
  obtain ⟨p, hp, hx⟩ := h
  rcases mem_minsert m k v p hp with h1 | h1
  · subst h1
    exact Or.inl hx.symm
  · exact Or.inr (by simp only [mkeys, List.mem_map]; exact ⟨p, h1, hx⟩)

/-- Assignment keeps the key list duplicate-free. -/
theorem nodup_mkeys_minsert (m : GoMap V) (k : String) (v : V) (h : (mkeys m).Nodup) :
    (mkeys (minsert m k v)).Nodup := by
  induction m with
  | nil => simp [minsert, mkeys]
  | cons p rest ih =>
    obtain ⟨k1, v1⟩ := p
    simp only [mkeys, List.map_cons, List.nodup_cons] at h
    by_cases h1 : k1 = k
    · subst h1
      rw [minsert, if_pos rfl]
      simpa [mkeys, List.nodup_cons] using h
    · rw [minsert, if_neg h1]
      simp only [mkeys, List.map_cons, List.nodup_cons]
      refine ⟨fun hmem => ?_, ih h.2⟩
      rcases mem_mkeys_minsert rest k v k1 hmem with h2 | h2
      · exact h1 h2
      · exact h.1 h2

end GoMap

/-- Folding a step function over a filtered row list equals folding over
the full list, when the dropped rows are no-ops on every state satisfying
a step-preserved invariant. -/
theorem foldl_filter_eq {σ : Type u} {α : Type v}
    (step : σ → α → σ) (Q : σ → Prop) (p : α → Bool)
    (hpres : ∀ s a, Q s → Q (step s a))
    (hid : ∀ s a, Q s → p a = false → step s a = s) :
    ∀ (l : List α) (init : σ), Q init →
      List.foldl step init (List.filter p l) = List.foldl step init l := by
  intro l
  induction l with
  | nil => intro init _; rfl
  | cons a rest ih =>
    intro init hQ
    cases hpa : p a with
    | true =>
      rw [List.filter_cons_of_pos hpa, List.foldl_cons, List.foldl_cons]
      exact ih (step init a) (hpres init a hQ)
    | false =>
      rw [List.filter_cons_of_neg (by simp [hpa]), List.foldl_cons, hid init a hQ hpa]
      exact ih init hQ

/-- A fold preserves any invariant its step preserves. -/
theorem foldl_preserve {σ : Type u} {α : Type v} (step : σ → α → σ) (Q : σ → Prop)
    (hpres : ∀ s a, Q s → Q (step s a)) :
    ∀ (l : List α) (init : σ), Q init → Q (List.foldl step init l) := by
  intro l
  induction l with
  | nil => intro init h; exact h
  | cons a rest ih => intro init h; exact ih (step init a) (hpres init a h)

namespace postgres

open GoMap

/-- Analogue of `foldl_filter_eq` for the column pass: dropped rows are
no-ops, kept behaviour is unchanged. -/
theorem columnPass_filter_eq (filterTables : String → String → Bool)
    (Q : SchemaMap → Prop) (p : database.ColumnRow → Bool)
    (hpres : ∀ m c m2, Q m → columnStep filterTables m c = some m2 → Q m2)
    (hid : ∀ m c, Q m → p c = false → columnStep filterTables m c = some m) :
    ∀ (l : List database.ColumnRow) (m : SchemaMap), Q m →
      columnPass filterTables m (List.filter p l) = columnPass filterTables m l := by
  intro l
  induction l with
  | nil => intro m _; rfl
  | cons c rest ih =>
    intro m hQ
    cases hpc : p c with
    | true =>
      rw [List.filter_cons_of_pos hpc]
      show columnPass filterTables m (c :: List.filter p rest) = _
      rw [columnPass, columnPass]
      cases hstep : columnStep filterTables m c with
      | none => rfl
      | some m2 => exact ih m2 (hpres m c m2 hQ hstep)
    | false =>
      rw [List.filter_cons_of_neg (by simp [hpc]), columnPass, hid m c hQ hpc]
      exact ih m hQ

/-- Scanning a filtered raw-row list: when the raw-row predicate agrees
with the processed-row predicate (and keeps every panicking row), the scan
of the filtered list is the filtered scan. -/
theorem scanIndexRows_filter (p : RawIndexRow → Bool) (q : indexResult → Bool)
    (hpq : ∀ r x, processIndexRow r = some x → p r = q x)
    (hnone : ∀ r, processIndexRow r = none → p r = true) :
    ∀ l, scanIndexRows (List.filter p l) = (scanIndexRows l).map (List.filter q) := by
  intro l
  induction l with
  | nil => rfl
  | cons r rest ih =>
    cases hr : processIndexRow r with
    | none =>
      rw [List.filter_cons_of_pos (hnone r hr)]
      show scanIndexRows (r :: List.filter p rest) = _
      rw [scanIndexRows, hr, scanIndexRows, hr]
      rfl
    | some x =>
      cases hpr : p r with
      | true =>
        rw [List.filter_cons_of_pos hpr]
        show scanIndexRows (r :: List.filter p rest) = _
        rw [scanIndexRows, hr, ih, scanIndexRows, hr]
        cases scanIndexRows rest with
        | none => rfl
        | some xs =>
          have hqx : q x = true := (hpq r x hr) ▸ hpr
          simp [List.filter_cons_of_pos hqx]
      | false =>
        rw [List.filter_cons_of_neg (by simp [hpr]), ih, scanIndexRows, hr]
        cases scanIndexRows rest with
        | none => rfl
        | some xs =>
          have hqx : q x = false := (hpq r x hr) ▸ hpr
          show some (List.filter q xs) = some (List.filter q (x :: xs))
          rw [List.filter_cons_of_neg (by simp [hqx])]

/-- Scanning an appended list splits into the two scans. -/
theorem scanIndexRows_append (l1 l2 : List RawIndexRow) :
    scanIndexRows (l1 ++ l2) =
      (scanIndexRows l1).bind fun a => (scanIndexRows l2).map fun b => a ++ b := by
  induction l1 with
  | nil =>
    show scanIndexRows l2 = (scanIndexRows l2).map fun b => [] ++ b
    cases scanIndexRows l2 <;> simp
  | cons r rest ih =>
    show scanIndexRows (r :: (rest ++ l2)) = _
    rw [scanIndexRows, scanIndexRows, ih]
    cases processIndexRow r with
    | none => rfl
    | some x =>
      cases scanIndexRows rest with
      | none => rfl
      | some a =>
        cases scanIndexRows l2 <;> simp

/-- `parse` over successful queries, in terms of the pass pipeline. -/
theorem parse_ok_unfold (schemaNames : List String) (filterTables : String → String → Bool)
    (tr : List TableRow) (cr : List database.ColumnRow) (pr : List database.PrimaryKey)
    (fr : List database.ForeignKey) (en : GoMap (List database.Enum))
    (idxQ : Except String (List RawIndexRow))
    (piT : String → List String → List String)
    (piI : String → String → List String → List String) :
    parse schemaNames filterTables (.ok tr) (.ok cr) (.ok pr) (.ok fr) (.ok en) idxQ piT piI =
      match builtMap schemaNames filterTables tr cr pr fr with
      | none => .panic
      | some m4 =>
        match queryIndexes idxQ with
        | none => .panic
        | some idxRows =>
          match assembleSchemas m4 en (idxRows.foldl (indexStep filterTables m4) [])
              piT piI schemaNames with
          | none => .panic
          | some ss => .ok ⟨ss⟩ := by
  cases h : columnPass filterTables (seededMap schemaNames filterTables tr) cr with
  | none => simp [parse, builtMap, h]
  | some m2 => simp [parse, builtMap, h]

end postgres

namespace postgres

open GoMap database

/-- The seed loop skips a filtered-out table row. -/
theorem seedStep_id_of_filtered (f : String → String → Bool) (m : SchemaMap) (tr : TableRow)
    (hf : f tr.TableSchema.String tr.TableName.String = false) : seedStep f m tr = m := by
  simp [seedStep, hf]

/-- The column loop skips a filtered-out column row. -/
theorem columnStep_id_of_filtered (f : String → String → Bool) (m : SchemaMap) (c : ColumnRow)
    (hf : f c.TableSchema.String c.TableName.String = false) : columnStep f m c = some m := by
  simp [columnStep, hf]

/-- The primary-key loop skips a filtered-out row. -/
theorem pkStep_id_of_filtered (f : String → String → Bool) (m : SchemaMap) (pk : PrimaryKey)
    (hf : f pk.SchemaName pk.TableName = false) : pkStep f m pk = m := by
  simp [pkStep, hf]

/-- The foreign-key loop skips a filtered-out row. -/
theorem fkStep_id_of_filtered (f : String → String → Bool) (m : SchemaMap) (fk : ForeignKey)
    (hf : f fk.SchemaName fk.TableName = false) : fkStep f m fk = m := by
  simp [fkStep, hf]

/-- The index loop skips a filtered-out row. -/
theorem indexStep_id_of_filtered (f : String → String → Bool) (schemas : SchemaMap)
    (idx : IdxMap) (r : indexResult)
    (hf : f r.SchemaName r.TableName = false) : indexStep f schemas idx r = idx := by
  simp [indexStep, hf]

/-- The column loop skips a row whose (schema, table) pair is not seeded. -/
theorem columnStep_id_of_unseen (f : String → String → Bool) (m : SchemaMap) (c : ColumnRow)
    (h : tableSeen m c.TableSchema.String c.TableName.String = false) :
    columnStep f m c = some m := by
  unfold tableSeen at h
  cases hf : f c.TableSchema.String c.TableName.String with
  | false => exact columnStep_id_of_filtered f m c hf
  | true =>
    unfold columnStep
    cases hm : mlookup m c.TableSchema.String with
    | none => simp [hf, hm]
    | some sm =>
      rw [hm] at h
      have h2 : (mlookup sm c.TableName.String).isSome = false := h
      cases hsm : mlookup sm c.TableName.String with
      | none => simp [hf, hm, hsm]
      | some cols => rw [hsm] at h2; simp at h2

/-- The primary-key loop skips a row whose (schema, table) pair is not
seeded. -/
theorem pkStep_id_of_unseen (f : String → String → Bool) (m : SchemaMap) (pk : PrimaryKey)
    (h : tableSeen m pk.SchemaName pk.TableName = false) : pkStep f m pk = m := by
  unfold tableSeen at h
  cases hf : f pk.SchemaName pk.TableName with
  | false => exact pkStep_id_of_filtered f m pk hf
  | true =>
    unfold pkStep
    cases hm : mlookup m pk.SchemaName with
    | none => simp [hf, hm]
    | some sm =>
      rw [hm] at h
      have h2 : (mlookup sm pk.TableName).isSome = false := h
      cases hsm : mlookup sm pk.TableName with
      | none => simp [hf, hm, hsm]
      | some cols => rw [hsm] at h2; simp at h2

/-- The foreign-key loop skips a row whose (schema, table) pair is not
seeded. -/
theorem fkStep_id_of_unseen (f : String → String → Bool) (m : SchemaMap) (fk : ForeignKey)
    (h : tableSeen m fk.SchemaName fk.TableName = false) : fkStep f m fk = m := by
  unfold tableSeen at h
  cases hf : f fk.SchemaName fk.TableName with
  | false => exact fkStep_id_of_filtered f m fk hf
  | true =>
    unfold fkStep
    cases hm : mlookup m fk.SchemaName with
    | none => simp [hf, hm]
    | some sm =>
      rw [hm] at h
      have h2 : (mlookup sm fk.TableName).isSome = false := h
      cases hsm : mlookup sm fk.TableName with
      | none => simp [hf, hm, hsm]
      | some cols => rw [hsm] at h2; simp at h2

/-- The index loop skips a row whose (schema, table) pair is not seeded. -/
theorem indexStep_id_of_unseen (f : String → String → Bool) (schemas : SchemaMap)
    (idx : IdxMap) (r : indexResult)
    (h : tableSeen schemas r.SchemaName r.TableName = false) :
    indexStep f schemas idx r = idx := by
  unfold tableSeen at h
  cases hf : f r.SchemaName r.TableName with
  | false => exact indexStep_id_of_filtered f schemas idx r hf
  | true =>
    unfold indexStep
    cases hm : mlookup schemas r.SchemaName with
    | none => simp [hf, hm]
    | some sm =>
      rw [hm] at h
      have h2 : (mlookup sm r.TableName).isSome = false := h
      cases hsm : mlookup sm r.TableName with
      | none => simp [hf, hm, hsm]
      | some cols => rw [hsm] at h2; simp at h2

/-- Looking up the key structure. -/
theorem mlookup_shape (m : SchemaMap) (k : String) :
    mlookup (shape m) k = Option.map mkeys (mlookup m k) := by
  induction m with
  | nil => rfl
  | cons p rest ih =>
    obtain ⟨k1, v1⟩ := p
    by_cases h : k1 = k
    · simp [shape, mlookup, h]
    · simp only [shape, List.map_cons] at ih ⊢
      rw [mlookup, mlookup, if_neg h, if_neg h]
      exact ih

/-- `tableSeen` only depends on the key structure. -/
theorem tableSeen_eq_of_shape (m m2 : SchemaMap) (h : shape m = shape m2) (s t : String) :
    tableSeen m s t = tableSeen m2 s t := by
  have h1 := mlookup_shape m s
  rw [h, mlookup_shape m2 s] at h1
  unfold tableSeen
  cases hm : mlookup m s with
  | none =>
    cases hm2 : mlookup m2 s with
    | none => rfl
    | some sm2 => rw [hm, hm2] at h1; simp at h1
  | some sm =>
    cases hm2 : mlookup m2 s with
    | none => rw [hm, hm2] at h1; simp at h1
    | some sm2 =>
      rw [hm, hm2] at h1
      simp only [Option.map_some'] at h1
      injection h1 with h1
      have e1 := mlookup_isSome_iff_mem sm t
      have e2 := mlookup_isSome_iff_mem sm2 t
      rw [← h1] at e1
      show (mlookup sm t).isSome = (mlookup sm2 t).isSome
      exact Bool.eq_iff_iff.mpr (e1.trans e2.symm)

/-- Overwriting a present key with a value of the same key structure keeps
the shape. -/
theorem shape_minsert_inner (m : SchemaMap) (k : String) (sm sm2 : GoMap (List Column))
    (hm : mlookup m k = some sm) (hk : mkeys sm2 = mkeys sm) :
    shape (minsert m k sm2) = shape m := by
  induction m with
  | nil => simp [mlookup] at hm
  | cons p rest ih =>
    obtain ⟨k1, v1⟩ := p
    by_cases h : k1 = k
    · subst h
      rw [mlookup, if_pos rfl] at hm
      injection hm with hm
      subst hm
      simp [minsert, shape, hk]
    · rw [mlookup, if_neg h] at hm
      simp only [minsert, if_neg h, shape, List.map_cons, List.cons.injEq, true_and]
      exact ih hm

/-- The column step preserves the key structure. -/
theorem columnStep_shape (f : String → String → Bool) (m : SchemaMap) (c : ColumnRow)
    (m2 : SchemaMap) (h : columnStep f m c = some m2) : shape m2 = shape m := by
  cases hf : f c.TableSchema.String c.TableName.String with
  | false =>
    rw [columnStep_id_of_filtered f m c hf] at h
    injection h with h
    rw [h]
  | true =>
    cases hm : mlookup m c.TableSchema.String with
    | none =>
      have hs : columnStep f m c = some m := by simp [columnStep, hf, hm]
      rw [hs] at h
      injection h with h
      rw [h]
    | some sm =>
      cases hsm : mlookup sm c.TableName.String with
      | none =>
        have hs : columnStep f m c = some m := by simp [columnStep, hf, hm, hsm]
        rw [hs] at h
        injection h with h
        rw [h]
      | some cols =>
        cases hc : toDBColumn c with
        | none =>
          have hs : columnStep f m c = none := by simp [columnStep, hf, hm, hsm, hc]
          rw [hs] at h
          cases h
        | some col =>
          have hs : columnStep f m c = some (minsert m c.TableSchema.String
              (minsert sm c.TableName.String (cols ++ [col]))) := by
            simp [columnStep, hf, hm, hsm, hc]
          rw [hs] at h
          injection h with h
          rw [← h]
          exact shape_minsert_inner m _ sm _ hm (mkeys_minsert_some sm _ cols _ hsm)

/-- The whole column pass preserves the key structure. -/
theorem columnPass_shape (f : String → String → Bool) :
    ∀ (l : List ColumnRow) (m m2 : SchemaMap), columnPass f m l = some m2 → shape m2 = shape m := by
  intro l
  induction l with
  | nil =>
    intro m m2 h
    injection h with h
    rw [h]
  | cons c rest ih =>
    intro m m2 h
    rw [columnPass] at h
    cases hc : columnStep f m c with
    | none => rw [hc] at h; cases h
    | some mm =>
      rw [hc] at h
      exact (ih mm m2 h).trans (columnStep_shape f m c mm hc)

/-- The primary-key step preserves the key structure. -/
theorem pkStep_shape (f : String → String → Bool) (m : SchemaMap) (pk : PrimaryKey) :
    shape (pkStep f m pk) = shape m := by
  cases hf : f pk.SchemaName pk.TableName with
  | false => rw [pkStep_id_of_filtered f m pk hf]
  | true =>
    cases hm : mlookup m pk.SchemaName with
    | none =>
      have hs : pkStep f m pk = m := by simp [pkStep, hf, hm]
      rw [hs]
    | some sm =>
      cases hsm : mlookup sm pk.TableName with
      | none =>
        have hs : pkStep f m pk = m := by simp [pkStep, hf, hm, hsm]
        rw [hs]
      | some table =>
        have hs : pkStep f m pk = minsert m pk.SchemaName (minsert sm pk.TableName
            (table.map fun col =>
              if pk.ColumnName = col.Name then { col with IsPrimaryKey := true } else col)) := by
          simp [pkStep, hf, hm, hsm]
        rw [hs]
        exact shape_minsert_inner m _ sm _ hm (mkeys_minsert_some sm _ table _ hsm)

/-- The foreign-key step preserves the key structure. -/
theorem fkStep_shape (f : String → String → Bool) (m : SchemaMap) (fk : ForeignKey) :
    shape (fkStep f m fk) = shape m := by
  cases hf : f fk.SchemaName fk.TableName with
  | false => rw [fkStep_id_of_filtered f m fk hf]
  | true =>
    cases hm : mlookup m fk.SchemaName with
    | none =>
      have hs : fkStep f m fk = m := by simp [fkStep, hf, hm]
      rw [hs]
    | some sm =>
      cases hsm : mlookup sm fk.TableName with
      | none =>
        have hs : fkStep f m fk = m := by simp [fkStep, hf, hm, hsm]
        rw [hs]
      | some table =>
        have hs : fkStep f m fk = minsert m fk.SchemaName (minsert sm fk.TableName
            (table.map fun col =>
              if fk.ColumnName = col.Name then
                { col with IsForeignKey := true, ForeignKey := some fk }
              else col)) := by
          simp [fkStep, hf, hm, hsm]
        rw [hs]
        exact shape_minsert_inner m _ sm _ hm (mkeys_minsert_some sm _ table _ hsm)

/-- The built state has the key structure of the seeded state. -/
theorem builtMap_shape (schemaNames : List String) (f : String → String → Bool)
    (tr : List TableRow) (cr : List ColumnRow) (pr : List PrimaryKey) (fr : List ForeignKey)
    (m4 : SchemaMap) (h : builtMap schemaNames f tr cr pr fr = some m4) :
    shape m4 = shape (seededMap schemaNames f tr) := by
  unfold builtMap at h
  cases hc : columnPass f (seededMap schemaNames f tr) cr with
  | none => rw [hc] at h; cases h
  | some m2 =>
    rw [hc] at h
    injection h with h
    have h3 : shape (pr.foldl (pkStep f) m2) = shape m2 :=
      foldl_preserve (pkStep f) (fun x => shape x = shape m2)
        (fun s a hs => (pkStep_shape f s a).trans hs) pr m2 rfl
    have h4 : shape (fr.foldl (fkStep f) (pr.foldl (pkStep f) m2)) = shape m2 :=
      foldl_preserve (fkStep f) (fun x => shape x = shape m2)
        (fun s a hs => (fkStep_shape f s a).trans hs) fr _ h3
    rw [← h]
    exact h4.trans (columnPass_shape f cr _ m2 hc)

end postgres

namespace postgres

open GoMap database

/-- Before any table row is processed, no (schema, table) pair is seeded. -/
theorem tableSeen_seedSchemas (ns : List String) (s t : String) :
    tableSeen (seedSchemas ns) s t = false := by
  unfold seedSchemas
  refine foldl_preserve _ (fun m => tableSeen m s t = false) ?_ ns [] rfl
  intro m name hQ
  by_cases hn : name = s
  · subst hn
    unfold tableSeen
    rw [mlookup_minsert_self]
    rfl
  · unfold tableSeen at hQ ⊢
    rw [mlookup_minsert_ne _ _ _ _ hn]
    exact hQ

/-- A (schema, table) pair rejected by the filter is never seeded. -/
theorem tableSeen_seeded_of_filtered (ns : List String) (f : String → String → Bool)
    (tr : List TableRow) (s t : String) (hf : f s t = false) :
    tableSeen (seededMap ns f tr) s t = false := by
  unfold seededMap
  refine foldl_preserve _ (fun m => tableSeen m s t = false) ?_ tr _
    (tableSeen_seedSchemas ns s t)
  intro m row hQ
  cases hfr : f row.TableSchema.String row.TableName.String with
  | false => rw [seedStep_id_of_filtered f m row hfr]; exact hQ
  | true =>
    cases hm : mlookup m row.TableSchema.String with
    | none =>
      have hs : seedStep f m row = m := by simp [seedStep, hfr, hm]
      rw [hs]; exact hQ
    | some sm =>
      have hs : seedStep f m row = minsert m row.TableSchema.String
          (minsert sm row.TableName.String []) := by
        simp [seedStep, hfr, hm]
      rw [hs]
      by_cases hsch : row.TableSchema.String = s
      · subst hsch
        have hrt : row.TableName.String ≠ t := by
          intro he
          rw [he] at hfr
          rw [hfr] at hf
          cases hf
        unfold tableSeen
        rw [mlookup_minsert_self]
        show (mlookup (minsert sm row.TableName.String []) t).isSome = false
        rw [mlookup_minsert_ne _ _ _ _ hrt]
        unfold tableSeen at hQ
        rw [hm] at hQ
        exact hQ
      · unfold tableSeen at hQ ⊢
        rw [mlookup_minsert_ne _ _ _ _ hsch]
        exact hQ

/-- Membership in the assembled schema list comes from one schema name. -/
theorem assembleSchemas_mem (m4 : SchemaMap) (en : GoMap (List Enum)) (idx : IdxMap)
    (piT : String → List String → List String)
    (piI : String → String → List String → List String) :
    ∀ (ns : List String) (ss : List Schema),
      assembleSchemas m4 en idx piT piI ns = some ss →
      ∀ sch ∈ ss, ∃ n ∈ ns, assembleSchema m4 en idx piT piI n = some sch := by
  intro ns
  induction ns with
  | nil =>
    intro ss h sch hs
    injection h with h
    rw [← h] at hs
    cases hs
  | cons n rest ih =>
    intro ss h sch hs
    rw [assembleSchemas] at h
    cases ha : assembleSchema m4 en idx piT piI n with
    | none => rw [ha] at h; cases h
    | some s0 =>
      rw [ha] at h
      cases hr : assembleSchemas m4 en idx piT piI rest with
      | none => rw [hr] at h; cases h
      | some ss0 =>
        rw [hr] at h
        injection h with h
        rw [← h] at hs
        rcases List.mem_cons.mp hs with he | hm
        · exact ⟨n, List.mem_cons_self _ _, he ▸ ha⟩
        · obtain ⟨n2, hn2, ha2⟩ := ih ss0 hr sch hm
          exact ⟨n2, List.mem_cons_of_mem _ hn2, ha2⟩

/-- What a successfully assembled schema contains: its name is the schema
name, and every table in it is a looked-up entry of the builder state. -/
theorem assembleSchema_tables_mem (m4 : SchemaMap) (en : GoMap (List Enum)) (idx : IdxMap)
    (piT : String → List String → List String)
    (piI : String → String → List String → List String)
    (n : String) (sch : Schema) (h : assembleSchema m4 en idx piT piI n = some sch) :
    sch.Name = n ∧ ∀ tbl ∈ sch.Tables,
      mlookup ((mlookup m4 n).getD []) tbl.Name = some tbl.Columns := by
  rw [assembleSchema] at h
  split at h
  · injection h with h
    constructor
    · rw [← h]
    · intro tbl htbl
      rw [← h] at htbl
      simp only at htbl
      obtain ⟨tname, _, heq⟩ := List.mem_filterMap.mp htbl
      cases hlk : mlookup ((mlookup m4 n).getD []) tname with
      | none => rw [hlk] at heq; cases heq
      | some cols =>
        rw [hlk] at heq
        simp only [Option.map_some'] at heq
        injection heq with heq
        rw [← heq]
        exact hlk
  · cases h

end postgres

/-- Congruence for the pass pipeline under stage-wise equal row lists. -/
theorem postgres.builtMap_congr (ns : List String) (f : String → String → Bool)
    (tr tr2 : List postgres.TableRow) (cr cr2 : List database.ColumnRow)
    (pr pr2 : List database.PrimaryKey) (fr fr2 : List database.ForeignKey)
    (h1 : postgres.seededMap ns f tr = postgres.seededMap ns f tr2)
    (h2 : ∀ m, postgres.columnPass f m cr = postgres.columnPass f m cr2)
    (h3 : ∀ m, pr.foldl (postgres.pkStep f) m = pr2.foldl (postgres.pkStep f) m)
    (h4 : ∀ m, fr.foldl (postgres.fkStep f) m = fr2.foldl (postgres.fkStep f) m) :
    postgres.builtMap ns f tr cr pr fr = postgres.builtMap ns f tr2 cr2 pr2 fr2 := by
  unfold postgres.builtMap
  rw [h1, h2]
  cases postgres.columnPass f (postgres.seededMap ns f tr2) cr2 with
  | none => rfl
  | some m2 =>
    show some (fr.foldl (postgres.fkStep f) (pr.foldl (postgres.pkStep f) m2)) =
      some (fr2.foldl (postgres.fkStep f) (pr2.foldl (postgres.pkStep f) m2))
    rw [h3, h4]

/-- A row kept out by a pair predicate names exactly that pair. -/
theorem pair_eq_of_keep_false {a b : String} (s t : String)
    (h : (!(a == s && b == t)) = false) : a = s ∧ b = t := by
  simp at h
  exact h

/-- C5: a (schema, table) pair the caller-supplied filter rejects is
excluded entirely from the model: no Table of that name appears under that
schema in any successfully built model, and deleting every table, column,
primary-key, foreign-key and index row of that pair from the query results
leaves the result of parse (including every column, flag and index of all
other tables) completely unchanged. -/
theorem filtered_table_excluded
    (schemaNames : List String) (filterTables : String → String → Bool) (s t : String)
    (hf : filterTables s t = false)
    (tr : List postgres.TableRow) (cr : List database.ColumnRow)
    (pr : List database.PrimaryKey) (fr : List database.ForeignKey)
    (en : GoMap (List database.Enum)) (ir : List postgres.RawIndexRow)
    (piT : String → List String → List String)
    (piI : String → String → List String → List String)
    (info : database.Info) (sch : database.Schema) (tbl : database.Table)
    (hok : postgres.parse schemaNames filterTables (.ok tr) (.ok cr) (.ok pr) (.ok fr)
      (.ok en) (.ok ir) piT piI = postgres.POut.ok info)
    (hs : sch ∈ info.Schemas) (hname : sch.Name = s) (htbl : tbl ∈ sch.Tables) :
    tbl.Name ≠ t ∧
    postgres.parse schemaNames filterTables
      (.ok (tr.filter fun r => !(r.TableSchema.String == s && r.TableName.String == t)))
      (.ok (cr.filter fun r => !(r.TableSchema.String == s && r.TableName.String == t)))
      (.ok (pr.filter fun r => !(r.SchemaName == s && r.TableName == t)))
      (.ok (fr.filter fun r => !(r.SchemaName == s && r.TableName == t)))
      (.ok en)
      (.ok (ir.filter fun r =>
        match postgres.processIndexRow r with
        | none => true
        | some x => !(x.SchemaName == s && x.TableName == t)))
      piT piI
    = postgres.POut.ok info := by
  have hseed : postgres.seededMap schemaNames filterTables
      (tr.filter fun r => !(r.TableSchema.String == s && r.TableName.String == t)) =
      postgres.seededMap schemaNames filterTables tr := by
    unfold postgres.seededMap
    refine foldl_filter_eq _ (fun _ => True) _ (fun _ _ _ => trivial) ?_ tr _ trivial
    intro m r _ hp
    obtain ⟨h1, h2⟩ := pair_eq_of_keep_false s t hp
    refine postgres.seedStep_id_of_filtered _ _ _ ?_
    rw [h1, h2, hf]
  have hcp : ∀ m : postgres.SchemaMap,
      postgres.columnPass filterTables m
        (cr.filter fun r => !(r.TableSchema.String == s && r.TableName.String == t)) =
      postgres.columnPass filterTables m cr := by
    intro m
    refine postgres.columnPass_filter_eq filterTables (fun _ => True) _
      (fun _ _ _ _ _ => trivial) ?_ cr m trivial
    intro m2 c _ hp
    obtain ⟨h1, h2⟩ := pair_eq_of_keep_false s t hp
    refine postgres.columnStep_id_of_filtered _ _ _ ?_
    rw [h1, h2, hf]
  have hpk : ∀ mm : postgres.SchemaMap,
      (pr.filter fun r => !(r.SchemaName == s && r.TableName == t)).foldl
        (postgres.pkStep filterTables) mm = pr.foldl (postgres.pkStep filterTables) mm := by
    intro mm
    refine foldl_filter_eq _ (fun _ => True) _ (fun _ _ _ => trivial) ?_ pr mm trivial
    intro m3 pk _ hp
    obtain ⟨h1, h2⟩ := pair_eq_of_keep_false s t hp
    refine postgres.pkStep_id_of_filtered _ _ _ ?_
    rw [h1, h2, hf]
  have hfk : ∀ mm : postgres.SchemaMap,
      (fr.filter fun r => !(r.SchemaName == s && r.TableName == t)).foldl
        (postgres.fkStep filterTables) mm = fr.foldl (postgres.fkStep filterTables) mm := by
    intro mm
    refine foldl_filter_eq _ (fun _ => True) _ (fun _ _ _ => trivial) ?_ fr mm trivial
    intro m3 fk _ hp
    obtain ⟨h1, h2⟩ := pair_eq_of_keep_false s t hp
    refine postgres.fkStep_id_of_filtered _ _ _ ?_
    rw [h1, h2, hf]
  have hbuilt : postgres.builtMap schemaNames filterTables
      (tr.filter fun r => !(r.TableSchema.String == s && r.TableName.String == t))
      (cr.filter fun r => !(r.TableSchema.String == s && r.TableName.String == t))
      (pr.filter fun r => !(r.SchemaName == s && r.TableName == t))
      (fr.filter fun r => !(r.SchemaName == s && r.TableName == t)) =
      postgres.builtMap schemaNames filterTables tr cr pr fr :=
    postgres.builtMap_congr schemaNames filterTables _ tr _ cr _ pr _ fr hseed hcp hpk hfk
  have hscan := postgres.scanIndexRows_filter
    (fun r => match postgres.processIndexRow r with
      | none => true
      | some x => !(x.SchemaName == s && x.TableName == t))
    (fun x => !(x.SchemaName == s && x.TableName == t))
    (fun r x hr => by simp [hr]) (fun r hr => by simp [hr]) ir
  have heq : postgres.parse schemaNames filterTables
      (.ok (tr.filter fun r => !(r.TableSchema.String == s && r.TableName.String == t)))
      (.ok (cr.filter fun r => !(r.TableSchema.String == s && r.TableName.String == t)))
      (.ok (pr.filter fun r => !(r.SchemaName == s && r.TableName == t)))
      (.ok (fr.filter fun r => !(r.SchemaName == s && r.TableName == t)))
      (.ok en)
      (.ok (ir.filter fun r =>
        match postgres.processIndexRow r with
        | none => true
        | some x => !(x.SchemaName == s && x.TableName == t)))
      piT piI
      = postgres.parse schemaNames filterTables (.ok tr) (.ok cr) (.ok pr) (.ok fr)
        (.ok en) (.ok ir) piT piI := by
    have hq2 : postgres.queryIndexes
        (.ok (ir.filter fun r =>
          match postgres.processIndexRow r with
          | none => true
          | some x => !(x.SchemaName == s && x.TableName == t))) =
        (postgres.scanIndexRows ir).map
          (List.filter fun x => !(x.SchemaName == s && x.TableName == t)) := hscan
    rw [postgres.parse_ok_unfold, postgres.parse_ok_unfold, hbuilt, hq2,
      show postgres.queryIndexes (Except.ok ir) = postgres.scanIndexRows ir from rfl]
    cases hsi : postgres.scanIndexRows ir with
    | none => rfl
    | some rows =>
      have hidx : ∀ m4 : postgres.SchemaMap,
          (rows.filter fun x => !(x.SchemaName == s && x.TableName == t)).foldl
            (postgres.indexStep filterTables m4) [] =
            rows.foldl (postgres.indexStep filterTables m4) [] := by
        intro m4
        refine foldl_filter_eq _ (fun _ => True) _ (fun _ _ _ => trivial) ?_ rows [] trivial
        intro st x _ hp
        obtain ⟨h1, h2⟩ := pair_eq_of_keep_false s t hp
        refine postgres.indexStep_id_of_filtered _ _ _ _ ?_
        rw [h1, h2, hf]
      simp only [Option.map_some', hidx]
  refine ⟨?_, heq.trans hok⟩
  -- no Table named t under schema s
  rw [postgres.parse_ok_unfold] at hok
  cases hb : postgres.builtMap schemaNames filterTables tr cr pr fr with
  | none => rw [hb] at hok; cases hok
  | some m4 =>
    rw [hb] at hok
    have hok2 : (match postgres.queryIndexes (Except.ok ir) with
      | none => postgres.POut.panic
      | some idxRows =>
        match postgres.assembleSchemas m4 en
            (idxRows.foldl (postgres.indexStep filterTables m4) []) piT piI schemaNames with
        | none => postgres.POut.panic
        | some ss => postgres.POut.ok ⟨ss⟩) = postgres.POut.ok info := hok
    cases hqi : postgres.queryIndexes (Except.ok ir) with
    | none => rw [hqi] at hok2; cases hok2
    | some rows =>
      rw [hqi] at hok2
      have hok3 : (match postgres.assembleSchemas m4 en
          (rows.foldl (postgres.indexStep filterTables m4) []) piT piI schemaNames with
        | none => postgres.POut.panic
        | some ss => postgres.POut.ok ⟨ss⟩) = postgres.POut.ok info := hok2
      cases ha : postgres.assembleSchemas m4 en
          (rows.foldl (postgres.indexStep filterTables m4) []) piT piI schemaNames with
      | none => rw [ha] at hok3; cases hok3
      | some ss =>
        rw [ha] at hok3
        injection hok3 with hok3
        have hss : sch ∈ ss := by
          rw [← hok3] at hs
          exact hs
        obtain ⟨n, _, hasch⟩ := postgres.assembleSchemas_mem m4 en _ piT piI
          schemaNames ss ha sch hss
        obtain ⟨hn, htables⟩ := postgres.assembleSchema_tables_mem m4 en _ piT piI n sch hasch
        have hn2 : n = s := by rw [← hn, hname]
        rw [hn2] at htables
        have hlook := htables tbl htbl
        intro hT
        rw [hT] at hlook
        have hseen : postgres.tableSeen m4 s t = false := by
          rw [postgres.tableSeen_eq_of_shape m4
            (postgres.seededMap schemaNames filterTables tr)
            (postgres.builtMap_shape schemaNames filterTables tr cr pr fr m4 hb) s t]
          exact postgres.tableSeen_seeded_of_filtered schemaNames filterTables tr s t hf
        cases hm : GoMap.mlookup m4 s with
        | none => rw [hm] at hlook; simp [GoMap.mlookup] at hlook
        | some sm =>
          rw [hm] at hlook
          simp only [Option.getD_some] at hlook
          have hseen2 : (GoMap.mlookup sm t).isSome = false := by
            unfold postgres.tableSeen at hseen
            rw [hm] at hseen
            exact hseen
          rw [hlook] at hseen2
          cases hseen2

/-- Witness for C5 at a concrete run: with only `public.users` admitted,
`public.orders` has no Table entry in the model, and dropping all of the
orders rows from every query result leaves the model unchanged. -/
theorem filtered_table_excluded_witness :
    (⟨"users", [fixtures.idCol], []⟩ : database.Table).Name ≠ "orders" ∧
    postgres.parse ["public"] fixtures.filterUsersOnly
      (.ok ([fixtures.usersTR, fixtures.ordersTR].filter fun r =>
        !(r.TableSchema.String == "public" && r.TableName.String == "orders")))
      (.ok ([fixtures.idCR, fixtures.oidCR].filter fun r =>
        !(r.TableSchema.String == "public" && r.TableName.String == "orders")))
      (.ok ([fixtures.ordersPK].filter fun r =>
        !(r.SchemaName == "public" && r.TableName == "orders")))
      (.ok (([] : List database.ForeignKey).filter fun r =>
        !(r.SchemaName == "public" && r.TableName == "orders")))
      (.ok [])
      (.ok ([fixtures.ordersIdx].filter fun r =>
        match postgres.processIndexRow r with
        | none => true
        | some x => !(x.SchemaName == "public" && x.TableName == "orders")))
      fixtures.idT fixtures.idI
    = postgres.POut.ok ⟨[⟨"public", [], [⟨"users", [fixtures.idCol], []⟩]⟩]⟩ :=
  filtered_table_excluded ["public"] fixtures.filterUsersOnly "public" "orders" (by decide)
    [fixtures.usersTR, fixtures.ordersTR] [fixtures.idCR, fixtures.oidCR] [fixtures.ordersPK]
    [] [] [fixtures.ordersIdx] fixtures.idT fixtures.idI
    ⟨[⟨"public", [], [⟨"users", [fixtures.idCol], []⟩]⟩]⟩
    ⟨"public", [], [⟨"users", [fixtures.idCol], []⟩]⟩
    ⟨"users", [fixtures.idCol], []⟩
    (by decide) (by decide) (by decide) (by decide)

namespace postgres

open GoMap database

/-- A panic-free column row never aborts the column step. -/
theorem columnStep_isSome (f : String → String → Bool) (m : SchemaMap) (c : ColumnRow)
    (h : (toDBColumn c).isSome) : ∃ m2, columnStep f m c = some m2 := by
  cases hf : f c.TableSchema.String c.TableName.String with
  | false => exact ⟨m, columnStep_id_of_filtered f m c hf⟩
  | true =>
    cases hm : mlookup m c.TableSchema.String with
    | none => exact ⟨m, by simp [columnStep, hf, hm]⟩
    | some sm =>
      cases hsm : mlookup sm c.TableName.String with
      | none => exact ⟨m, by simp [columnStep, hf, hm, hsm]⟩
      | some cols =>
        cases hc : toDBColumn c with
        | none => rw [hc] at h; cases h
        | some col =>
          exact ⟨minsert m c.TableSchema.String (minsert sm c.TableName.String (cols ++ [col])),
            by simp [columnStep, hf, hm, hsm, hc]⟩

/-- A panic-free column row list never aborts the column pass. -/
theorem columnPass_isSome (f : String → String → Bool) :
    ∀ (l : List ColumnRow) (m : SchemaMap), (∀ c ∈ l, (toDBColumn c).isSome) →
      ∃ m2, columnPass f m l = some m2 := by
  intro l
  induction l with
  | nil => intro m _; exact ⟨m, rfl⟩
  | cons c rest ih =>
    intro m hall
    obtain ⟨mm, hmm⟩ := columnStep_isSome f m c (hall c (List.mem_cons_self _ _))
    obtain ⟨m2, hm2⟩ := ih mm fun x hx => hall x (List.mem_cons_of_mem _ hx)
    exact ⟨m2, by rw [columnPass, hmm]; exact hm2⟩

/-- A panic-free raw index-row list never aborts the scan. -/
theorem scanIndexRows_isSome :
    ∀ l : List RawIndexRow, (∀ r ∈ l, (processIndexRow r).isSome) →
      ∃ rows, scanIndexRows l = some rows := by
  intro l
  induction l with
  | nil => exact fun _ => ⟨[], rfl⟩
  | cons r rest ih =>
    intro hall
    have h1 := hall r (List.mem_cons_self _ _)
    cases hr : processIndexRow r with
    | none => rw [hr] at h1; cases h1
    | some x =>
      obtain ⟨rows, hrows⟩ := ih fun y hy => hall y (List.mem_cons_of_mem _ hy)
      exact ⟨x :: rows, by rw [scanIndexRows, hr, hrows]⟩

/-- The index step only records rows whose (schema, table) pair is seeded. -/
theorem indexStep_idxConsistent (f : String → String → Bool) (m4 : SchemaMap)
    (idx : IdxMap) (r : indexResult) (h : IdxConsistent m4 idx) :
    IdxConsistent m4 (indexStep f m4 idx r) := by
  cases hf : f r.SchemaName r.TableName with
  | false => rw [indexStep_id_of_filtered f m4 idx r hf]; exact h
  | true =>
    cases hm : mlookup m4 r.SchemaName with
    | none =>
      have hs : indexStep f m4 idx r = idx := by simp [indexStep, hf, hm]
      rw [hs]; exact h
    | some schema =>
      cases hsm : mlookup schema r.TableName with
      | none =>
        have hs : indexStep f m4 idx r = idx := by simp [indexStep, hf, hm, hsm]
        rw [hs]; exact h
      | some table =>
        cases hres : resolveColumns (mkColumnMap table) r.Columns with
        | none =>
          have hs : indexStep f m4 idx r = idx := by simp [indexStep, hf, hm, hsm, hres]
          rw [hs]; exact h
        | some columns =>
          have hseen : tableSeen m4 r.SchemaName r.TableName = true := by
            unfold tableSeen
            rw [hm]
            show (mlookup schema r.TableName).isSome = true
            rw [hsm]
            rfl
          have hs : indexStep f m4 idx r = minsert idx r.SchemaName
              (minsert ((mlookup idx r.SchemaName).getD []) r.TableName
                (minsert ((mlookup ((mlookup idx r.SchemaName).getD []) r.TableName).getD [])
                  r.IndexName
                  (((mlookup ((mlookup ((mlookup idx r.SchemaName).getD [])
                    r.TableName).getD []) r.IndexName).getD []) ++ columns))) := by
            simp [indexStep, hf, hm, hsm, hres]
          rw [hs]
          intro p hp q hq
          rcases mem_minsert _ _ _ _ hp with hp1 | hp1
          · rw [hp1] at hq ⊢
            rcases mem_minsert _ _ _ _ hq with hq1 | hq1
            · rw [hq1]
              exact hseen
            · cases hlp : mlookup idx r.SchemaName with
              | none => rw [hlp] at hq1; simp [Option.getD] at hq1
              | some sm0 =>
                rw [hlp] at hq1
                simp only [Option.getD_some] at hq1
                exact h _ (mem_of_mlookup_eq idx r.SchemaName sm0 hlp) q hq1
          · exact h p hp1 q hq

/-- With a consistent index map, assembling one schema never panics. -/
theorem assembleSchema_isSome (m4 : SchemaMap) (en : GoMap (List Enum)) (idx : IdxMap)
    (piT : String → List String → List String)
    (piI : String → String → List String → List String)
    (n : String) (h : IdxConsistent m4 idx) :
    ∃ sch, assembleSchema m4 en idx piT piI n = some sch := by
  rw [assembleSchema]
  have hguard : ((mlookup idx n).getD []).all
      (fun p => (mlookup ((mlookup m4 n).getD []) p.1).isSome) = true := by
    cases hlp : mlookup idx n with
    | none => rfl
    | some sm =>
      rw [Option.getD_some]
      rw [List.all_eq_true]
      intro q hq
      have hseen := h _ (mem_of_mlookup_eq idx n sm hlp) q hq
      unfold tableSeen at hseen
      cases hm : mlookup m4 n with
      | none => rw [hm] at hseen; cases hseen
      | some tables =>
        rw [hm] at hseen
        rw [Option.getD_some]
        exact hseen
  rw [hguard]
  exact ⟨_, rfl⟩

/-- With a consistent index map, the assembly loop never panics. -/
theorem assembleSchemas_isSome (m4 : SchemaMap) (en : GoMap (List Enum)) (idx : IdxMap)
    (piT : String → List String → List String)
    (piI : String → String → List String → List String)
    (h : IdxConsistent m4 idx) :
    ∀ ns : List String, ∃ ss, assembleSchemas m4 en idx piT piI ns = some ss := by
  intro ns
  induction ns with
  | nil => exact ⟨[], rfl⟩
  | cons n rest ih =>
    obtain ⟨sch, hsch⟩ := assembleSchema_isSome m4 en idx piT piI n h
    obtain ⟨ss, hss⟩ := ih
    exact ⟨sch :: ss, by rw [assembleSchemas, hsch, hss]⟩

end postgres

/-- C6: referential inconsistencies are skipped, never fatal: for query
results without run-time panics (no ARRAY column with empty UdtName, no
unsliceable index table name), parse returns a model (no error, no abort);
and dropping every column, primary-key, foreign-key and index row whose
(schema, table) pair was not seeded leaves the result of parse completely
unchanged — all other rows are still processed exactly as before. -/
theorem inconsistent_rows_skipped
    (schemaNames : List String) (filterTables : String → String → Bool)
    (tr : List postgres.TableRow) (cr : List database.ColumnRow)
    (pr : List database.PrimaryKey) (fr : List database.ForeignKey)
    (en : GoMap (List database.Enum)) (ir : List postgres.RawIndexRow)
    (piT : String → List String → List String)
    (piI : String → String → List String → List String)
    (hcols : ∀ c ∈ cr, (postgres.toDBColumn c).isSome)
    (hirs : ∀ r ∈ ir, (postgres.processIndexRow r).isSome) :
    (∃ info, postgres.parse schemaNames filterTables (.ok tr) (.ok cr) (.ok pr) (.ok fr)
      (.ok en) (.ok ir) piT piI = postgres.POut.ok info) ∧
    postgres.parse schemaNames filterTables (.ok tr)
      (.ok (cr.filter fun c => postgres.tableSeen
        (postgres.seededMap schemaNames filterTables tr) c.TableSchema.String c.TableName.String))
      (.ok (pr.filter fun p => postgres.tableSeen
        (postgres.seededMap schemaNames filterTables tr) p.SchemaName p.TableName))
      (.ok (fr.filter fun k => postgres.tableSeen
        (postgres.seededMap schemaNames filterTables tr) k.SchemaName k.TableName))
      (.ok en)
      (.ok (ir.filter fun r =>
        match postgres.processIndexRow r with
        | none => true
        | some x => postgres.tableSeen
          (postgres.seededMap schemaNames filterTables tr) x.SchemaName x.TableName))
      piT piI
    = postgres.parse schemaNames filterTables (.ok tr) (.ok cr) (.ok pr) (.ok fr)
      (.ok en) (.ok ir) piT piI := by
  constructor
  · -- parse succeeds
    obtain ⟨m2, hc⟩ := postgres.columnPass_isSome filterTables cr
      (postgres.seededMap schemaNames filterTables tr) hcols
    have hbm : postgres.builtMap schemaNames filterTables tr cr pr fr =
        some (fr.foldl (postgres.fkStep filterTables)
          (pr.foldl (postgres.pkStep filterTables) m2)) := by
      unfold postgres.builtMap
      rw [hc]
    obtain ⟨rows, hsi⟩ := postgres.scanIndexRows_isSome ir hirs
    have hqi2 : postgres.queryIndexes (Except.ok ir) = some rows := hsi
    have hcons : postgres.IdxConsistent
        (fr.foldl (postgres.fkStep filterTables) (pr.foldl (postgres.pkStep filterTables) m2))
        (rows.foldl (postgres.indexStep filterTables
          (fr.foldl (postgres.fkStep filterTables)
            (pr.foldl (postgres.pkStep filterTables) m2))) []) := by
      refine foldl_preserve _ (postgres.IdxConsistent _) ?_ rows [] ?_
      · intro st x hst
        exact postgres.indexStep_idxConsistent filterTables _ st x hst
      · intro p hp
        cases hp
    obtain ⟨ss, hass⟩ := postgres.assembleSchemas_isSome _ en _ piT piI hcons schemaNames
    refine ⟨⟨ss⟩, ?_⟩
    rw [postgres.parse_ok_unfold, hbm]
    show (match postgres.queryIndexes (Except.ok ir) with
      | none => postgres.POut.panic
      | some idxRows =>
        match postgres.assembleSchemas
            (fr.foldl (postgres.fkStep filterTables) (pr.foldl (postgres.pkStep filterTables) m2))
            en (idxRows.foldl (postgres.indexStep filterTables
              (fr.foldl (postgres.fkStep filterTables)
                (pr.foldl (postgres.pkStep filterTables) m2))) []) piT piI schemaNames with
        | none => postgres.POut.panic
        | some ss => postgres.POut.ok ⟨ss⟩) = postgres.POut.ok ⟨ss⟩
    rw [hqi2]
    show (match postgres.assembleSchemas
        (fr.foldl (postgres.fkStep filterTables) (pr.foldl (postgres.pkStep filterTables) m2))
        en (rows.foldl (postgres.indexStep filterTables
          (fr.foldl (postgres.fkStep filterTables)
            (pr.foldl (postgres.pkStep filterTables) m2))) []) piT piI schemaNames with
      | none => postgres.POut.panic
      | some ss => postgres.POut.ok ⟨ss⟩) = postgres.POut.ok ⟨ss⟩
    rw [hass]
  · -- dropping the inconsistent rows is invisible
    have hcpEq : postgres.columnPass filterTables
        (postgres.seededMap schemaNames filterTables tr)
        (cr.filter fun c => postgres.tableSeen
          (postgres.seededMap schemaNames filterTables tr)
          c.TableSchema.String c.TableName.String) =
        postgres.columnPass filterTables (postgres.seededMap schemaNames filterTables tr) cr := by
      refine postgres.columnPass_filter_eq filterTables
        (fun m => postgres.shape m = postgres.shape (postgres.seededMap schemaNames filterTables tr))
        _ ?_ ?_ cr _ rfl
      · intro m c m2 hQ hstep
        exact (postgres.columnStep_shape filterTables m c m2 hstep).trans hQ
      · intro m c hQ hp
        refine postgres.columnStep_id_of_unseen filterTables m c ?_
        rw [postgres.tableSeen_eq_of_shape m _ hQ]
        exact hp
    have hpkEq : ∀ m : postgres.SchemaMap,
        postgres.shape m = postgres.shape (postgres.seededMap schemaNames filterTables tr) →
        (pr.filter fun p => postgres.tableSeen
          (postgres.seededMap schemaNames filterTables tr) p.SchemaName p.TableName).foldl
          (postgres.pkStep filterTables) m = pr.foldl (postgres.pkStep filterTables) m := by
      intro m hQ
      refine foldl_filter_eq _
        (fun x => postgres.shape x = postgres.shape (postgres.seededMap schemaNames filterTables tr))
        _ ?_ ?_ pr m hQ
      · intro s2 a hs
        exact (postgres.pkStep_shape filterTables s2 a).trans hs
      · intro s2 a hs hp
        refine postgres.pkStep_id_of_unseen filterTables s2 a ?_
        rw [postgres.tableSeen_eq_of_shape s2 _ hs]
        exact hp
    have hfkEq : ∀ m : postgres.SchemaMap,
        postgres.shape m = postgres.shape (postgres.seededMap schemaNames filterTables tr) →
        (fr.filter fun k => postgres.tableSeen
          (postgres.seededMap schemaNames filterTables tr) k.SchemaName k.TableName).foldl
          (postgres.fkStep filterTables) m = fr.foldl (postgres.fkStep filterTables) m := by
      intro m hQ
      refine foldl_filter_eq _
        (fun x => postgres.shape x = postgres.shape (postgres.seededMap schemaNames filterTables tr))
        _ ?_ ?_ fr m hQ
      · intro s2 a hs
        exact (postgres.fkStep_shape filterTables s2 a).trans hs
      · intro s2 a hs hp
        refine postgres.fkStep_id_of_unseen filterTables s2 a ?_
        rw [postgres.tableSeen_eq_of_shape s2 _ hs]
        exact hp
    have hbuilt : postgres.builtMap schemaNames filterTables tr
        (cr.filter fun c => postgres.tableSeen
          (postgres.seededMap schemaNames filterTables tr)
          c.TableSchema.String c.TableName.String)
        (pr.filter fun p => postgres.tableSeen
          (postgres.seededMap schemaNames filterTables tr) p.SchemaName p.TableName)
        (fr.filter fun k => postgres.tableSeen
          (postgres.seededMap schemaNames filterTables tr) k.SchemaName k.TableName) =
        postgres.builtMap schemaNames filterTables tr cr pr fr := by
      unfold postgres.builtMap
      rw [hcpEq]
      cases hc : postgres.columnPass filterTables
          (postgres.seededMap schemaNames filterTables tr) cr with
      | none => rfl
      | some m2 =>
        have hQ2 : postgres.shape m2 =
            postgres.shape (postgres.seededMap schemaNames filterTables tr) :=
          postgres.columnPass_shape filterTables cr _ m2 hc
        have hQ3 : postgres.shape (pr.foldl (postgres.pkStep filterTables) m2) =
            postgres.shape (postgres.seededMap schemaNames filterTables tr) :=
          foldl_preserve _ (fun x => postgres.shape x =
              postgres.shape (postgres.seededMap schemaNames filterTables tr))
            (fun s2 a hs => (postgres.pkStep_shape filterTables s2 a).trans hs) pr m2 hQ2
        show some ((fr.filter fun k => postgres.tableSeen
            (postgres.seededMap schemaNames filterTables tr) k.SchemaName k.TableName).foldl
            (postgres.fkStep filterTables)
            ((pr.filter fun p => postgres.tableSeen
              (postgres.seededMap schemaNames filterTables tr) p.SchemaName p.TableName).foldl
              (postgres.pkStep filterTables) m2)) =
          some (fr.foldl (postgres.fkStep filterTables)
            (pr.foldl (postgres.pkStep filterTables) m2))
        rw [hpkEq m2 hQ2, hfkEq _ hQ3]
    have hscan := postgres.scanIndexRows_filter
      (fun r => match postgres.processIndexRow r with
        | none => true
        | some x => postgres.tableSeen
          (postgres.seededMap schemaNames filterTables tr) x.SchemaName x.TableName)
      (fun x => postgres.tableSeen
        (postgres.seededMap schemaNames filterTables tr) x.SchemaName x.TableName)
      (fun r x hr => by simp [hr]) (fun r hr => by simp [hr]) ir
    have hq2 : postgres.queryIndexes
        (.ok (ir.filter fun r =>
          match postgres.processIndexRow r with
          | none => true
          | some x => postgres.tableSeen
            (postgres.seededMap schemaNames filterTables tr) x.SchemaName x.TableName)) =
        (postgres.scanIndexRows ir).map
          (List.filter fun x => postgres.tableSeen
            (postgres.seededMap schemaNames filterTables tr) x.SchemaName x.TableName) := hscan
    rw [postgres.parse_ok_unfold, postgres.parse_ok_unfold, hbuilt, hq2,
      show postgres.queryIndexes (Except.ok ir) = postgres.scanIndexRows ir from rfl]
    cases hb : postgres.builtMap schemaNames filterTables tr cr pr fr with
    | none => rfl
    | some m4 =>
      have hQ4 : postgres.shape m4 =
          postgres.shape (postgres.seededMap schemaNames filterTables tr) :=
        postgres.builtMap_shape schemaNames filterTables tr cr pr fr m4 hb
      cases hsi : postgres.scanIndexRows ir with
      | none => rfl
      | some rows =>
        have hidx : (rows.filter fun x => postgres.tableSeen
            (postgres.seededMap schemaNames filterTables tr) x.SchemaName x.TableName).foldl
            (postgres.indexStep filterTables m4) [] =
            rows.foldl (postgres.indexStep filterTables m4) [] := by
          refine foldl_filter_eq _ (fun _ => True) _ (fun _ _ _ => trivial) ?_ rows [] trivial
          intro st x _ hp
          refine postgres.indexStep_id_of_unseen filterTables m4 st x ?_
          rw [postgres.tableSeen_eq_of_shape m4 _ hQ4]
          exact hp
        show (match Option.map (List.filter fun x => postgres.tableSeen
            (postgres.seededMap schemaNames filterTables tr) x.SchemaName x.TableName)
            (some rows) with
          | none => postgres.POut.panic
          | some idxRows =>
            match postgres.assembleSchemas m4 en
                (idxRows.foldl (postgres.indexStep filterTables m4) []) piT piI schemaNames with
            | none => postgres.POut.panic
            | some ss => postgres.POut.ok ⟨ss⟩) =
          (match some rows with
          | none => postgres.POut.panic
          | some idxRows =>
            match postgres.assembleSchemas m4 en
                (idxRows.foldl (postgres.indexStep filterTables m4) []) piT piI schemaNames with
            | none => postgres.POut.panic
            | some ss => postgres.POut.ok ⟨ss⟩)
        simp only [Option.map_some']
        rw [hidx]

/-- Witness for C6 at a concrete run: column, primary-key, foreign-key and
index rows naming the never-seeded table `public.ghost` do not make parse
fail, and dropping them changes nothing. -/
theorem inconsistent_rows_skipped_witness :
    (∃ info, postgres.parse ["public"] fixtures.filterAll (.ok [fixtures.usersTR])
      (.ok [fixtures.idCR, fixtures.ghostCR]) (.ok [fixtures.ghostPK])
      (.ok [fixtures.ghostTableFK]) (.ok []) (.ok [fixtures.ghostIdx])
      fixtures.idT fixtures.idI = postgres.POut.ok info) ∧
    postgres.parse ["public"] fixtures.filterAll (.ok [fixtures.usersTR])
      (.ok ([fixtures.idCR, fixtures.ghostCR].filter fun c => postgres.tableSeen
        (postgres.seededMap ["public"] fixtures.filterAll [fixtures.usersTR])
        c.TableSchema.String c.TableName.String))
      (.ok ([fixtures.ghostPK].filter fun p => postgres.tableSeen
        (postgres.seededMap ["public"] fixtures.filterAll [fixtures.usersTR])
        p.SchemaName p.TableName))
      (.ok ([fixtures.ghostTableFK].filter fun k => postgres.tableSeen
        (postgres.seededMap ["public"] fixtures.filterAll [fixtures.usersTR])
        k.SchemaName k.TableName))
      (.ok [])
      (.ok ([fixtures.ghostIdx].filter fun r =>
        match postgres.processIndexRow r with
        | none => true
        | some x => postgres.tableSeen
          (postgres.seededMap ["public"] fixtures.filterAll [fixtures.usersTR])
          x.SchemaName x.TableName))
      fixtures.idT fixtures.idI
    = postgres.parse ["public"] fixtures.filterAll (.ok [fixtures.usersTR])
      (.ok [fixtures.idCR, fixtures.ghostCR]) (.ok [fixtures.ghostPK])
      (.ok [fixtures.ghostTableFK]) (.ok []) (.ok [fixtures.ghostIdx])
      fixtures.idT fixtures.idI :=
  inconsistent_rows_skipped ["public"] fixtures.filterAll [fixtures.usersTR]
    [fixtures.idCR, fixtures.ghostCR] [fixtures.ghostPK] [fixtures.ghostTableFK]
    [] [fixtures.ghostIdx] fixtures.idT fixtures.idI (by decide) (by decide)

/-- C3 (amended): an index row naming a column that is not among the
owning table's columns is dropped whole — deleting it from the index query
result leaves the model unchanged, so no partially-populated entry from
that row appears.  (A duplicated resolvable column name, by contrast, is
kept — see the counterexample.) -/
theorem index_unknown_column_row_dropped
    (schemaNames : List String) (filterTables : String → String → Bool)
    (tr : List postgres.TableRow) (cr : List database.ColumnRow)
    (pr : List database.PrimaryKey) (fr : List database.ForeignKey)
    (en : GoMap (List database.Enum)) (ir1 ir2 : List postgres.RawIndexRow)
    (rr : postgres.RawIndexRow)
    (piT : String → List String → List String)
    (piI : String → String → List String → List String)
    (m4 : postgres.SchemaMap) (sm : GoMap (List database.Column))
    (table : List database.Column) (x : postgres.indexResult)
    (hm4 : postgres.builtMap schemaNames filterTables tr cr pr fr = some m4)
    (hx : postgres.processIndexRow rr = some x)
    (hsm : GoMap.mlookup m4 x.SchemaName = some sm)
    (htb : GoMap.mlookup sm x.TableName = some table)
    (hres : postgres.resolveColumns (postgres.mkColumnMap table) x.Columns = none) :
    postgres.parse schemaNames filterTables (.ok tr) (.ok cr) (.ok pr) (.ok fr) (.ok en)
      (.ok (ir1 ++ rr :: ir2)) piT piI =
    postgres.parse schemaNames filterTables (.ok tr) (.ok cr) (.ok pr) (.ok fr) (.ok en)
      (.ok (ir1 ++ ir2)) piT piI := by
  have hstep : ∀ idx : postgres.IdxMap, postgres.indexStep filterTables m4 idx x = idx := by
    intro idx
    cases hf : filterTables x.SchemaName x.TableName with
    | false => exact postgres.indexStep_id_of_filtered filterTables m4 idx x hf
    | true => simp [postgres.indexStep, hf, hsm, htb, hres]
  rw [postgres.parse_ok_unfold, postgres.parse_ok_unfold, hm4]
  cases h1 : postgres.scanIndexRows ir1 with
  | none =>
    have hL : postgres.queryIndexes (Except.ok (ir1 ++ rr :: ir2)) = none := by
      show postgres.scanIndexRows (ir1 ++ rr :: ir2) = none
      rw [postgres.scanIndexRows_append, h1]
      rfl
    have hR : postgres.queryIndexes (Except.ok (ir1 ++ ir2)) = none := by
      show postgres.scanIndexRows (ir1 ++ ir2) = none
      rw [postgres.scanIndexRows_append, h1]
      rfl
    rw [hL, hR]
  | some a =>
    cases h2 : postgres.scanIndexRows ir2 with
    | none =>
      have hmid : postgres.scanIndexRows (rr :: ir2) = none := by
        rw [postgres.scanIndexRows, hx, h2]
      have hL : postgres.queryIndexes (Except.ok (ir1 ++ rr :: ir2)) = none := by
        show postgres.scanIndexRows (ir1 ++ rr :: ir2) = none
        rw [postgres.scanIndexRows_append, h1, hmid]
        rfl
      have hR : postgres.queryIndexes (Except.ok (ir1 ++ ir2)) = none := by
        show postgres.scanIndexRows (ir1 ++ ir2) = none
        rw [postgres.scanIndexRows_append, h1, h2]
        rfl
      rw [hL, hR]
    | some b =>
      have hmid : postgres.scanIndexRows (rr :: ir2) = some (x :: b) := by
        rw [postgres.scanIndexRows, hx, h2]
      have hL : postgres.queryIndexes (Except.ok (ir1 ++ rr :: ir2)) = some (a ++ x :: b) := by
        show postgres.scanIndexRows (ir1 ++ rr :: ir2) = some (a ++ x :: b)
        rw [postgres.scanIndexRows_append, h1, hmid]
        rfl
      have hR : postgres.queryIndexes (Except.ok (ir1 ++ ir2)) = some (a ++ b) := by
        show postgres.scanIndexRows (ir1 ++ ir2) = some (a ++ b)
        rw [postgres.scanIndexRows_append, h1, h2]
        rfl
      rw [hL, hR]
      have hfold : (a ++ x :: b).foldl (postgres.indexStep filterTables m4) [] =
          (a ++ b).foldl (postgres.indexStep filterTables m4) [] := by
        rw [List.foldl_append, List.foldl_append, List.foldl_cons, hstep]
      show (match postgres.assembleSchemas m4 en
          ((a ++ x :: b).foldl (postgres.indexStep filterTables m4) []) piT piI schemaNames with
        | none => postgres.POut.panic
        | some ss => postgres.POut.ok ⟨ss⟩) =
        (match postgres.assembleSchemas m4 en
          ((a ++ b).foldl (postgres.indexStep filterTables m4) []) piT piI schemaNames with
        | none => postgres.POut.panic
        | some ss => postgres.POut.ok ⟨ss⟩)
      rw [hfold]

/-- Witness for C3 (amended) at a concrete run: an index row over `users`
naming the unknown column `nope` contributes nothing to the model. -/
theorem index_unknown_column_row_dropped_witness :
    postgres.parse ["public"] fixtures.filterAll (.ok [fixtures.usersTR]) (.ok [fixtures.idCR])
      (.ok []) (.ok []) (.ok []) (.ok ([] ++ fixtures.badColIdx :: []))
      fixtures.idT fixtures.idI =
    postgres.parse ["public"] fixtures.filterAll (.ok [fixtures.usersTR]) (.ok [fixtures.idCR])
      (.ok []) (.ok []) (.ok []) (.ok ([] ++ []))
      fixtures.idT fixtures.idI :=
  index_unknown_column_row_dropped ["public"] fixtures.filterAll [fixtures.usersTR]
    [fixtures.idCR] [] [] [] [] [] fixtures.badColIdx fixtures.idT fixtures.idI
    [("public", [("users", [fixtures.idCol])])] [("users", [fixtures.idCol])]
    [fixtures.idCol] ⟨"public", "users", "bad_idx", ["id", "nope"]⟩
    (by decide) (by decide) (by decide) (by decide) (by decide)

namespace postgres

open GoMap database

/-- A freshly converted column is not flagged as a foreign key. -/
theorem toDBColumn_fk_none (c : ColumnRow) (col : Column) (h : toDBColumn c = some col) :
    col.IsForeignKey = false ∧ col.ForeignKey = none := by
  simp only [toDBColumn] at h
  split at h
  · split at h
    · injection h with h
      rw [← h]
      exact ⟨rfl, rfl⟩
    · cases h
  · split at h
    · injection h with h
      rw [← h]
      exact ⟨rfl, rfl⟩
    · injection h with h
      rw [← h]
      exact ⟨rfl, rfl⟩

/-- Seeding produces a foreign-key-consistent state (all column lists are
empty). -/
theorem FKC_seeded (ns : List String) (f : String → String → Bool) (tr : List TableRow) :
    FKC (seededMap ns f tr) := by
  unfold seededMap
  refine foldl_preserve _ FKC ?_ tr _ ?_
  · intro m row hm
    cases hf : f row.TableSchema.String row.TableName.String with
    | false => rw [seedStep_id_of_filtered f m row hf]; exact hm
    | true =>
      cases hml : mlookup m row.TableSchema.String with
      | none =>
        rw [show seedStep f m row = m from by simp [seedStep, hf, hml]]
        exact hm
      | some sm =>
        rw [show seedStep f m row = minsert m row.TableSchema.String
            (minsert sm row.TableName.String []) from by simp [seedStep, hf, hml]]
        intro p hp q hq cc hcc hcfk
        rcases mem_minsert _ _ _ _ hp with hp1 | hp1
        · rw [hp1] at hq ⊢
          rcases mem_minsert _ _ _ _ hq with hq1 | hq1
          · rw [hq1] at hcc
            cases hcc
          · exact hm _ (mem_of_mlookup_eq m _ sm hml) q hq1 cc hcc hcfk
        · exact hm p hp1 q hq cc hcc hcfk
  · unfold seedSchemas
    refine foldl_preserve _ FKC ?_ ns [] ?_
    · intro m name hm p hp q hq cc hcc hcfk
      rcases mem_minsert _ _ _ _ hp with hp1 | hp1
      · rw [hp1] at hq
        cases hq
      · exact hm p hp1 q hq cc hcc hcfk
    · intro p hp
      cases hp

/-- The column step preserves foreign-key consistency: new columns are
unflagged. -/
theorem columnStep_FKC (f : String → String → Bool) (m : SchemaMap) (c : ColumnRow)
    (m2 : SchemaMap) (h : columnStep f m c = some m2) (hm : FKC m) : FKC m2 := by
  cases hf : f c.TableSchema.String c.TableName.String with
  | false =>
    rw [columnStep_id_of_filtered f m c hf] at h
    injection h with h
    rw [← h]
    exact hm
  | true =>
    cases hml : mlookup m c.TableSchema.String with
    | none =>
      rw [show columnStep f m c = some m from by simp [columnStep, hf, hml]] at h
      injection h with h
      rw [← h]
      exact hm
    | some sm =>
      cases hsml : mlookup sm c.TableName.String with
      | none =>
        rw [show columnStep f m c = some m from by simp [columnStep, hf, hml, hsml]] at h
        injection h with h
        rw [← h]
        exact hm
      | some cols =>
        cases hcv : toDBColumn c with
        | none =>
          rw [show columnStep f m c = none from by simp [columnStep, hf, hml, hsml, hcv]] at h
          cases h
        | some col =>
          rw [show columnStep f m c = some (minsert m c.TableSchema.String
              (minsert sm c.TableName.String (cols ++ [col]))) from by
            simp [columnStep, hf, hml, hsml, hcv]] at h
          injection h with h
          rw [← h]
          intro p hp q hq cc hcc hcfk
          rcases mem_minsert _ _ _ _ hp with hp1 | hp1
          · rw [hp1] at hq ⊢
            rcases mem_minsert _ _ _ _ hq with hq1 | hq1
            · rw [hq1] at hcc ⊢
              rcases List.mem_append.mp hcc with hin | hin
              · exact hm _ (mem_of_mlookup_eq m _ sm hml) _
                  (mem_of_mlookup_eq sm _ cols hsml) cc hin hcfk
              · have hone : cc = col := by
                  cases hin with
                  | head => rfl
                  | tail _ hbad => cases hbad
                rw [hone] at hcfk
                obtain ⟨hfkF, _⟩ := toDBColumn_fk_none c col hcv
                rw [hfkF] at hcfk
                cases hcfk
            · exact hm _ (mem_of_mlookup_eq m _ sm hml) q hq1 cc hcc hcfk
          · exact hm p hp1 q hq cc hcc hcfk

/-- The primary-key step preserves foreign-key consistency: it changes no
foreign-key field. -/
theorem pkStep_FKC (f : String → String → Bool) (m : SchemaMap) (pk : PrimaryKey)
    (hm : FKC m) : FKC (pkStep f m pk) := by
  cases hf : f pk.SchemaName pk.TableName with
  | false => rw [pkStep_id_of_filtered f m pk hf]; exact hm
  | true =>
    cases hml : mlookup m pk.SchemaName with
    | none => rw [show pkStep f m pk = m from by simp [pkStep, hf, hml]]; exact hm
    | some sm =>
      cases hsml : mlookup sm pk.TableName with
      | none => rw [show pkStep f m pk = m from by simp [pkStep, hf, hml, hsml]]; exact hm
      | some table =>
        rw [show pkStep f m pk = minsert m pk.SchemaName (minsert sm pk.TableName
            (table.map fun col =>
              if pk.ColumnName = col.Name then { col with IsPrimaryKey := true } else col))
          from by simp [pkStep, hf, hml, hsml]]
        intro p hp q hq cc hcc hcfk
        rcases mem_minsert _ _ _ _ hp with hp1 | hp1
        · rw [hp1] at hq ⊢
          rcases mem_minsert _ _ _ _ hq with hq1 | hq1
          · rw [hq1] at hcc ⊢
            obtain ⟨c0, hc0, hcc0⟩ := List.mem_map.mp hcc
            have hfields : cc.IsForeignKey = c0.IsForeignKey ∧
                cc.ForeignKey = c0.ForeignKey ∧ cc.Name = c0.Name := by
              by_cases hname : pk.ColumnName = c0.Name
              · rw [← hcc0]
                simp [hname]
              · rw [← hcc0]
                simp [hname]
            obtain ⟨hfk1, hfk2, hfk3⟩ := hfields
            rw [hfk1] at hcfk
            obtain ⟨fk, hfe, hfs, hft, hfc⟩ := hm _ (mem_of_mlookup_eq m _ sm hml) _
              (mem_of_mlookup_eq sm _ table hsml) c0 hc0 hcfk
            exact ⟨fk, by rw [hfk2]; exact hfe, hfs, hft, by rw [hfk3]; exact hfc⟩
          · exact hm _ (mem_of_mlookup_eq m _ sm hml) q hq1 cc hcc hcfk
        · exact hm p hp1 q hq cc hcc hcfk

/-- The foreign-key step preserves foreign-key consistency: it stores the
row on exactly the matching columns of exactly the named table. -/
theorem fkStep_FKC (f : String → String → Bool) (m : SchemaMap) (fk : ForeignKey)
    (hm : FKC m) : FKC (fkStep f m fk) := by
  cases hf : f fk.SchemaName fk.TableName with
  | false => rw [fkStep_id_of_filtered f m fk hf]; exact hm
  | true =>
    cases hml : mlookup m fk.SchemaName with
    | none => rw [show fkStep f m fk = m from by simp [fkStep, hf, hml]]; exact hm
    | some sm =>
      cases hsml : mlookup sm fk.TableName with
      | none => rw [show fkStep f m fk = m from by simp [fkStep, hf, hml, hsml]]; exact hm
      | some table =>
        rw [show fkStep f m fk = minsert m fk.SchemaName (minsert sm fk.TableName
            (table.map fun col =>
              if fk.ColumnName = col.Name then
                { col with IsForeignKey := true, ForeignKey := some fk }
              else col))
          from by simp [fkStep, hf, hml, hsml]]
        intro p hp q hq cc hcc hcfk
        rcases mem_minsert _ _ _ _ hp with hp1 | hp1
        · rw [hp1] at hq ⊢
          rcases mem_minsert _ _ _ _ hq with hq1 | hq1
          · rw [hq1] at hcc ⊢
            obtain ⟨c0, hc0, hcc0⟩ := List.mem_map.mp hcc
            by_cases hname : fk.ColumnName = c0.Name
            · refine ⟨fk, ?_, rfl, rfl, ?_⟩
              · rw [← hcc0]
                simp [hname]
              · rw [← hcc0]
                simp [hname]
            · have hccc : cc = c0 := by rw [← hcc0]; simp [hname]
              rw [hccc] at hcfk ⊢
              obtain ⟨fk2, hfe, hfs, hft, hfc⟩ := hm _ (mem_of_mlookup_eq m _ sm hml) _
                (mem_of_mlookup_eq sm _ table hsml) c0 hc0 hcfk
              exact ⟨fk2, hfe, hfs, hft, hfc⟩
          · exact hm _ (mem_of_mlookup_eq m _ sm hml) q hq1 cc hcc hcfk
        · exact hm p hp1 q hq cc hcc hcfk

/-- The column pass preserves foreign-key consistency. -/
theorem columnPass_FKC (f : String → String → Bool) :
    ∀ (l : List ColumnRow) (m m2 : SchemaMap),
      columnPass f m l = some m2 → FKC m → FKC m2 := by
  intro l
  induction l with
  | nil =>
    intro m m2 h hm
    injection h with h
    rw [← h]
    exact hm
  | cons c rest ih =>
    intro m m2 h hm
    rw [columnPass] at h
    cases hstep : columnStep f m c with
    | none => rw [hstep] at h; cases h
    | some mm =>
      rw [hstep] at h
      exact ih mm m2 h (columnStep_FKC f m c mm hstep hm)

/-- The whole built state is foreign-key consistent. -/
theorem builtMap_FKC (ns : List String) (f : String → String → Bool)
    (tr : List TableRow) (cr : List ColumnRow) (pr : List PrimaryKey) (fr : List ForeignKey)
    (m4 : SchemaMap) (h : builtMap ns f tr cr pr fr = some m4) : FKC m4 := by
  unfold builtMap at h
  cases hc : columnPass f (seededMap ns f tr) cr with
  | none => rw [hc] at h; cases h
  | some m2 =>
    rw [hc] at h
    injection h with h
    have hm2 : FKC m2 := columnPass_FKC f cr _ m2 hc (FKC_seeded ns f tr)
    have hm3 : FKC (pr.foldl (pkStep f) m2) :=
      foldl_preserve _ FKC (fun s2 a hs => pkStep_FKC f s2 a hs) pr m2 hm2
    have hm4 : FKC (fr.foldl (fkStep f) (pr.foldl (pkStep f) m2)) :=
      foldl_preserve _ FKC (fun s2 a hs => fkStep_FKC f s2 a hs) fr _ hm3
    rw [← h]
    exact hm4

end postgres

/-- C4 (amended): the referencing side of every stored foreign key is
consistent: in any successfully built model, a column flagged as a foreign
key carries a constraint row naming exactly its own schema, table and
column (so the referencing column always resolves).  The referenced table
and column, by contrast, are stored as names only and never validated —
see the counterexample, where a foreign key to a non-existent table
survives. -/
theorem foreign_key_referencing_side_consistent
    (schemaNames : List String) (filterTables : String → String → Bool)
    (tr : List postgres.TableRow) (cr : List database.ColumnRow)
    (pr : List database.PrimaryKey) (fr : List database.ForeignKey)
    (en : GoMap (List database.Enum)) (ir : List postgres.RawIndexRow)
    (piT : String → List String → List String)
    (piI : String → String → List String → List String)
    (info : database.Info) (sch : database.Schema) (tbl : database.Table)
    (c : database.Column)
    (hok : postgres.parse schemaNames filterTables (.ok tr) (.ok cr) (.ok pr) (.ok fr)
      (.ok en) (.ok ir) piT piI = postgres.POut.ok info)
    (hs : sch ∈ info.Schemas) (ht : tbl ∈ sch.Tables) (hc : c ∈ tbl.Columns)
    (hfk : c.IsForeignKey = true) :
    ∃ fk, c.ForeignKey = some fk ∧ fk.SchemaName = sch.Name ∧ fk.TableName = tbl.Name ∧
      fk.ColumnName = c.Name := by
  rw [postgres.parse_ok_unfold] at hok
  cases hb : postgres.builtMap schemaNames filterTables tr cr pr fr with
  | none => rw [hb] at hok; cases hok
  | some m4 =>
    rw [hb] at hok
    have hok2 : (match postgres.queryIndexes (Except.ok ir) with
      | none => postgres.POut.panic
      | some idxRows =>
        match postgres.assembleSchemas m4 en
            (idxRows.foldl (postgres.indexStep filterTables m4) []) piT piI schemaNames with
        | none => postgres.POut.panic
        | some ss => postgres.POut.ok ⟨ss⟩) = postgres.POut.ok info := hok
    cases hqi : postgres.queryIndexes (Except.ok ir) with
    | none => rw [hqi] at hok2; cases hok2
    | some rows =>
      rw [hqi] at hok2
      have hok3 : (match postgres.assembleSchemas m4 en
          (rows.foldl (postgres.indexStep filterTables m4) []) piT piI schemaNames with
        | none => postgres.POut.panic
        | some ss => postgres.POut.ok ⟨ss⟩) = postgres.POut.ok info := hok2
      cases ha : postgres.assembleSchemas m4 en
          (rows.foldl (postgres.indexStep filterTables m4) []) piT piI schemaNames with
      | none => rw [ha] at hok3; cases hok3
      | some ss =>
        rw [ha] at hok3
        injection hok3 with hok3
        have hss : sch ∈ ss := by
          rw [← hok3] at hs
          exact hs
        obtain ⟨n, _, hasch⟩ := postgres.assembleSchemas_mem m4 en _ piT piI
          schemaNames ss ha sch hss
        obtain ⟨hn, htables⟩ := postgres.assembleSchema_tables_mem m4 en _ piT piI n sch hasch
        have hlook := htables tbl ht
        have hFKC := postgres.builtMap_FKC schemaNames filterTables tr cr pr fr m4 hb
        cases hm : GoMap.mlookup m4 n with
        | none => rw [hm] at hlook; simp [GoMap.mlookup] at hlook
        | some tables =>
          rw [hm] at hlook
          simp only [Option.getD_some] at hlook
          obtain ⟨fk, hfe, hfs, hft, hfc⟩ := hFKC (n, tables)
            (GoMap.mem_of_mlookup_eq m4 n tables hm) (tbl.Name, tbl.Columns)
            (GoMap.mem_of_mlookup_eq tables tbl.Name tbl.Columns hlook) c hc hfk
          exact ⟨fk, hfe, by rw [hfs, hn], hft, hfc⟩

/-- Witness for C4 (amended) at a concrete run: the column flagged by the
dangling foreign key carries a constraint row naming its own schema, table
and column. -/
theorem foreign_key_referencing_side_consistent_witness :
    ∃ fk, fixtures.idColFK.ForeignKey = some fk ∧
      fk.SchemaName = (⟨"public", [], [⟨"users", [fixtures.idColFK], []⟩]⟩ :
        database.Schema).Name ∧
      fk.TableName = (⟨"users", [fixtures.idColFK], []⟩ : database.Table).Name ∧
      fk.ColumnName = fixtures.idColFK.Name :=
  foreign_key_referencing_side_consistent ["public"] fixtures.filterAll
    [fixtures.usersTR] [fixtures.idCR] [] [fixtures.ghostFK] [] []
    fixtures.idT fixtures.idI
    ⟨[⟨"public", [], [⟨"users", [fixtures.idColFK], []⟩]⟩]⟩
    ⟨"public", [], [⟨"users", [fixtures.idColFK], []⟩]⟩
    ⟨"users", [fixtures.idColFK], []⟩
    fixtures.idColFK
    (by decide) (by decide) (by decide) (by decide) (by decide)

namespace postgres

open GoMap database

/-- `sinsert` is a permutation of consing. -/
theorem sinsert_perm (x : String) : ∀ l : List String, (sinsert x l).Perm (x :: l) := by
  intro l
  induction l with
  | nil => exact List.Perm.refl _
  | cons y ys ih =>
    rw [sinsert]
    by_cases h : x ≤ y
    · rw [if_pos h]
    · rw [if_neg h]
      exact (ih.cons y).trans (List.Perm.swap x y ys)

/-- `ssort` is a permutation of its input. -/
theorem ssort_perm : ∀ l : List String, (ssort l).Perm l := by
  intro l
  induction l with
  | nil => exact List.Perm.refl _
  | cons x xs ih => exact (sinsert_perm x (ssort xs)).trans (ih.cons x)

/-- `sinsert` preserves sortedness. -/
theorem sinsert_sorted (x : String) :
    ∀ l : List String, l.Sorted (· ≤ ·) → (sinsert x l).Sorted (· ≤ ·) := by
  intro l
  induction l with
  | nil => intro _; simp [sinsert]
  | cons y ys ih =>
    intro hs
    obtain ⟨hy, hys⟩ := List.sorted_cons.mp hs
    rw [sinsert]
    by_cases h : x ≤ y
    · rw [if_pos h]
      refine List.sorted_cons.mpr ⟨?_, hs⟩
      intro b hb
      rcases List.mem_cons.mp hb with hb | hb
      · rw [hb]; exact h
      · exact h.trans (hy b hb)
    · rw [if_neg h]
      refine List.sorted_cons.mpr ⟨?_, ih hys⟩
      intro b hb
      rcases List.mem_cons.mp ((sinsert_perm x ys).mem_iff.mp hb) with hb3 | hb3
      · rw [hb3]
        exact le_of_not_le h
      · exact hy b hb3

/-- `ssort` sorts. -/
theorem ssort_sorted : ∀ l : List String, (ssort l).Sorted (· ≤ ·) := by
  intro l
  induction l with
  | nil => simp [ssort]
  | cons x xs ih => exact sinsert_sorted x (ssort xs) ih

/-- On duplicate-free inputs, `ssort` is permutation-invariant: any two
permutations of the same key set sort to the same list. -/
theorem ssort_eq_of_perm (l1 l2 : List String) (hp : l1.Perm l2) (hn : l2.Nodup) :
    ssort l1 = ssort l2 := by
  have hperm : (ssort l1).Perm (ssort l2) :=
    ((ssort_perm l1).trans hp).trans (ssort_perm l2).symm
  have hn1 : (ssort l1).Nodup := (((ssort_perm l1).trans hp).nodup_iff).mpr hn
  have hn2 : (ssort l2).Nodup := ((ssort_perm l2).nodup_iff).mpr hn
  exact List.eq_of_perm_of_sorted hperm
    ((ssort_sorted l1).lt_of_le hn1) ((ssort_sorted l2).lt_of_le hn2)

end postgres

namespace postgres

open GoMap database

variable {T : Type u}

/-- Mapping the name over a keyed `filterMap` returns the key order. -/
theorem map_name_filterMap (f : String → Option T) (name : T → String)
    (hname : ∀ k t, f k = some t → name t = k) :
    ∀ order : List String, (∀ k ∈ order, (f k).isSome) →
      (order.filterMap f).map name = order := by
  intro order
  induction order with
  | nil => intro _; rfl
  | cons k rest ih =>
    intro hsome
    have h1 := hsome k (List.mem_cons_self _ _)
    cases hk : f k with
    | none => rw [hk] at h1; cases h1
    | some t =>
      rw [List.filterMap_cons_some hk, List.map_cons, hname k t hk,
        ih fun y hy => hsome y (List.mem_cons_of_mem _ hy)]

/-- Finding an element of a keyed `filterMap` by its name gives the value
at that key. -/
theorem find_filterMap_keyed (f : String → Option T) (name : T → String)
    (hname : ∀ k t, f k = some t → name t = k) :
    ∀ (order : List String) (n : String), n ∈ order → (∀ k ∈ order, (f k).isSome) →
      ((order.filterMap f).find? fun t2 => name t2 == n) = f n := by
  intro order
  induction order with
  | nil => intro n hn; cases hn
  | cons k rest ih =>
    intro n hn hsome
    have h1 := hsome k (List.mem_cons_self _ _)
    cases hk : f k with
    | none => rw [hk] at h1; cases h1
    | some t =>
      rw [List.filterMap_cons_some hk]
      by_cases hkn : k = n
      · rw [List.find?_cons_of_pos]
        · rw [← hkn, hk]
        · rw [hname k t hk, hkn]
          exact beq_self_eq_true n
      · rw [List.find?_cons_of_neg]
        · refine ih n ?_ fun y hy => hsome y (List.mem_cons_of_mem _ hy)
          rcases List.mem_cons.mp hn with h2 | h2
          · exact absurd h2.symm hkn
          · exact h2
        · rw [hname k t hk]
          simp [hkn]

/-- The canonicalizer on `[]`. -/
theorem canonByName_nil (name : T → String) : canonByName name [] = [] := rfl

/-- Reordering a keyed `filterMap` by sorted name equals building it over
the sorted keys directly. -/
theorem canonByName_keyed (f : String → Option T) (name : T → String)
    (hname : ∀ k t, f k = some t → name t = k)
    (ks order : List String) (horder : order.Perm ks) (hnodup : ks.Nodup)
    (hsome : ∀ k ∈ ks, (f k).isSome) :
    canonByName name (order.filterMap f) = (ssort ks).filterMap f := by
  have hsomeO : ∀ k ∈ order, (f k).isSome := fun k hk => hsome k (horder.mem_iff.mp hk)
  unfold canonByName
  rw [map_name_filterMap f name hname order hsomeO, ssort_eq_of_perm order ks horder hnodup]
  refine List.filterMap_congr ?_
  intro n hn
  exact find_filterMap_keyed f name hname order n
    (horder.mem_iff.mpr ((ssort_perm ks).mem_iff.mp hn)) hsomeO

end postgres


namespace postgres

open GoMap database

/-- Canonicalizing a table assembled with an arbitrary index iteration
order yields the table assembled with the sorted order. -/
theorem canonTable_mkIndexes (piI : String → String → List String → List String)
    (hI : ∀ s t ks, (piI s t ks).Perm ks)
    (idxS : GoMap (GoMap (List Column))) (hnodup : ∀ q ∈ idxS, (mkeys q.2).Nodup)
    (n tname : String) (cols : List Column) :
    canonTable (mkTbl piI idxS n tname cols) =
    mkTbl (fun _ _ ks => ssort ks) idxS n tname cols := by
  unfold canonTable mkTbl
  show ({ Name := tname, Columns := cols, Indexes := canonByName (fun i => i.Name) (mkIndexes piI idxS n tname) } : Table) = _
  cases hlp : mlookup idxS tname with
  | none =>
    rw [show mkIndexes piI idxS n tname = [] from by rw [mkIndexes, hlp],
      show mkIndexes (fun _ _ ks => ssort ks) idxS n tname = [] from by rw [mkIndexes, hlp],
      canonByName_nil]
  | some tm =>
    rw [show mkIndexes piI idxS n tname = (piI n tname (mkeys tm)).filterMap fun iname =>
        (mlookup tm iname).map fun cols2 => { Name := iname, Columns := cols2 }
      from by rw [mkIndexes, hlp],
      show mkIndexes (fun _ _ ks => ssort ks) idxS n tname =
        (ssort (mkeys tm)).filterMap fun iname =>
        (mlookup tm iname).map fun cols2 => { Name := iname, Columns := cols2 }
      from by rw [mkIndexes, hlp]]
    rw [canonByName_keyed _ _ ?_ (mkeys tm) _ (hI n tname (mkeys tm))
      (hnodup (tname, tm) (mem_of_mlookup_eq idxS tname tm hlp)) ?_]
    · intro k t hk
      cases hmk : mlookup tm k with
      | none => rw [hmk] at hk; cases hk
      | some cols2 =>
        rw [hmk] at hk
        injection hk with hk
        rw [← hk]
    · intro k hk
      have h1 : (mlookup tm k).isSome = true := (mlookup_isSome_iff_mem tm k).mpr hk
      cases hmk : mlookup tm k with
      | none => rw [hmk] at h1; cases h1
      | some cols2 => rfl

end postgres

namespace postgres

open GoMap database

/-- Canonicalizing a schema assembled with arbitrary iteration orders
yields the schema assembled with the sorted orders. -/
theorem canonSchema_assemble (m4 : SchemaMap) (en : GoMap (List Enum)) (idx : IdxMap)
    (piT : String → List String → List String)
    (piI : String → String → List String → List String)
    (hT : ∀ s ks, (piT s ks).Perm ks) (hI : ∀ s t ks, (piI s t ks).Perm ks)
    (hWF : WF m4) (hidx : IdxWF idx) (n : String) :
    Option.map canonSchema (assembleSchema m4 en idx piT piI n) =
    assembleSchema m4 en idx (fun _ ks => ssort ks) (fun _ _ ks => ssort ks) n := by
  have hnodupT : (mkeys ((mlookup m4 n).getD [])).Nodup := by
    cases hm : mlookup m4 n with
    | none => exact List.nodup_nil
    | some tables =>
      rw [Option.getD_some]
      exact hWF (n, tables) (mem_of_mlookup_eq m4 n tables hm)
  have hnodupI : ∀ q ∈ (mlookup idx n).getD [], (mkeys q.2).Nodup := by
    cases hip : mlookup idx n with
    | none => intro q hq; cases hq
    | some sm =>
      rw [Option.getD_some]
      exact hidx (n, sm) (mem_of_mlookup_eq idx n sm hip)
  by_cases hguard : ((mlookup idx n).getD []).all
      (fun p => (mlookup ((mlookup m4 n).getD []) p.1).isSome) = true
  · have hL : assembleSchema m4 en idx piT piI n = some (Schema.mk n ((mlookup en n).getD [])
        ((piT n (mkeys ((mlookup m4 n).getD []))).filterMap fun tname =>
          (mlookup ((mlookup m4 n).getD []) tname).map fun cols =>
            mkTbl piI ((mlookup idx n).getD []) n tname cols)) := by
      simp only [assembleSchema]
      rw [if_pos hguard]
    have hR : assembleSchema m4 en idx (fun _ ks => ssort ks) (fun _ _ ks => ssort ks) n =
        some (Schema.mk n ((mlookup en n).getD [])
        ((ssort (mkeys ((mlookup m4 n).getD []))).filterMap fun tname =>
          (mlookup ((mlookup m4 n).getD []) tname).map fun cols =>
            mkTbl (fun _ _ ks => ssort ks) ((mlookup idx n).getD []) n tname cols)) := by
      simp only [assembleSchema]
      rw [if_pos hguard]
    rw [hL, hR, Option.map_some']
    have hname : ∀ k t, ((mlookup ((mlookup m4 n).getD []) k).map fun cols =>
        mkTbl piI ((mlookup idx n).getD []) n k cols) = some t → t.Name = k := by
      intro k t hk
      cases hml : mlookup ((mlookup m4 n).getD []) k with
      | none => rw [hml] at hk; cases hk
      | some cols =>
        rw [hml, Option.map_some'] at hk
        injection hk with hk
        rw [← hk]
        rfl
    have hsome : ∀ k ∈ mkeys ((mlookup m4 n).getD []),
        ((mlookup ((mlookup m4 n).getD []) k).map fun cols =>
          mkTbl piI ((mlookup idx n).getD []) n k cols).isSome = true := by
      intro k hk
      have h1 := (mlookup_isSome_iff_mem ((mlookup m4 n).getD []) k).mpr hk
      cases hml : mlookup ((mlookup m4 n).getD []) k with
      | none => rw [hml] at h1; cases h1
      | some cols => rfl
    show some (Schema.mk n ((mlookup en n).getD [])
      ((canonByName (fun t => t.Name)
        ((piT n (mkeys ((mlookup m4 n).getD []))).filterMap fun tname =>
          (mlookup ((mlookup m4 n).getD []) tname).map fun cols =>
            mkTbl piI ((mlookup idx n).getD []) n tname cols)).map canonTable)) = _
    rw [canonByName_keyed _ _ hname (mkeys ((mlookup m4 n).getD [])) _
      (hT n (mkeys ((mlookup m4 n).getD []))) hnodupT hsome, List.map_filterMap]
    refine congrArg (fun ts => some (Schema.mk n ((mlookup en n).getD []) ts))
      (List.filterMap_congr ?_)
    intro tname _
    cases hml : mlookup ((mlookup m4 n).getD []) tname with
    | none => rfl
    | some cols =>
      show some (canonTable (mkTbl piI ((mlookup idx n).getD []) n tname cols)) =
        some (mkTbl (fun _ _ ks => ssort ks) ((mlookup idx n).getD []) n tname cols)
      rw [canonTable_mkIndexes piI hI _ hnodupI n tname cols]
  · have hL : assembleSchema m4 en idx piT piI n = none := by
      simp only [assembleSchema]
      rw [if_neg hguard]
    have hR : assembleSchema m4 en idx (fun _ ks => ssort ks) (fun _ _ ks => ssort ks) n =
        none := by
      simp only [assembleSchema]
      rw [if_neg hguard]
    rw [hL, hR, Option.map_none']

end postgres

namespace postgres

open GoMap database

/-- Well-formedness only depends on the key structure. -/
theorem WF_of_shape (m m2 : SchemaMap) (h : shape m = shape m2) (h2 : WF m2) : WF m := by
  intro p hp
  have hmem : (p.1, mkeys p.2) ∈ shape m := by
    unfold shape
    exact List.mem_map_of_mem _ hp
  rw [h] at hmem
  unfold shape at hmem
  obtain ⟨q, hq, heq⟩ := List.mem_map.mp hmem
  have heq2 : mkeys q.2 = mkeys p.2 := congrArg Prod.snd heq
  rw [← heq2]
  exact h2 q hq

/-- The seeded state is well-formed. -/
theorem WF_seeded (ns : List String) (f : String → String → Bool) (tr : List TableRow) :
    WF (seededMap ns f tr) := by
  unfold seededMap
  refine foldl_preserve _ WF ?_ tr _ ?_
  · intro m row hm
    cases hf : f row.TableSchema.String row.TableName.String with
    | false => rw [seedStep_id_of_filtered f m row hf]; exact hm
    | true =>
      cases hml : mlookup m row.TableSchema.String with
      | none =>
        rw [show seedStep f m row = m from by simp [seedStep, hf, hml]]
        exact hm
      | some sm =>
        rw [show seedStep f m row = minsert m row.TableSchema.String
            (minsert sm row.TableName.String []) from by simp [seedStep, hf, hml]]
        intro p hp
        rcases mem_minsert _ _ _ _ hp with hp1 | hp1
        · rw [hp1]
          exact nodup_mkeys_minsert sm _ _
            (hm _ (mem_of_mlookup_eq m _ sm hml))
        · exact hm p hp1
  · unfold seedSchemas
    refine foldl_preserve _ WF ?_ ns [] ?_
    · intro m name hm p hp
      rcases mem_minsert _ _ _ _ hp with hp1 | hp1
      · rw [hp1]
        exact List.nodup_nil
      · exact hm p hp1
    · intro p hp
      cases hp

/-- The index step preserves index-map well-formedness. -/
theorem indexStep_IdxWF (f : String → String → Bool) (m4 : SchemaMap)
    (idx : IdxMap) (r : indexResult) (h : IdxWF idx) : IdxWF (indexStep f m4 idx r) := by
  cases hf : f r.SchemaName r.TableName with
  | false => rw [indexStep_id_of_filtered f m4 idx r hf]; exact h
  | true =>
    cases hm : mlookup m4 r.SchemaName with
    | none =>
      rw [show indexStep f m4 idx r = idx from by simp [indexStep, hf, hm]]
      exact h
    | some schema =>
      cases hsm : mlookup schema r.TableName with
      | none =>
        rw [show indexStep f m4 idx r = idx from by simp [indexStep, hf, hm, hsm]]
        exact h
      | some table =>
        cases hres : resolveColumns (mkColumnMap table) r.Columns with
        | none =>
          rw [show indexStep f m4 idx r = idx from by simp [indexStep, hf, hm, hsm, hres]]
          exact h
        | some columns =>
          rw [show indexStep f m4 idx r = minsert idx r.SchemaName
              (minsert ((mlookup idx r.SchemaName).getD []) r.TableName
                (minsert ((mlookup ((mlookup idx r.SchemaName).getD []) r.TableName).getD [])
                  r.IndexName
                  (((mlookup ((mlookup ((mlookup idx r.SchemaName).getD [])
                    r.TableName).getD []) r.IndexName).getD []) ++ columns)))
            from by simp [indexStep, hf, hm, hsm, hres]]
          intro p hp q hq
          rcases mem_minsert _ _ _ _ hp with hp1 | hp1
          · rw [hp1] at hq
            rcases mem_minsert _ _ _ _ hq with hq1 | hq1
            · rw [hq1]
              have hold : (mkeys ((mlookup ((mlookup idx r.SchemaName).getD [])
                  r.TableName).getD [])).Nodup := by
                cases hsp : mlookup idx r.SchemaName with
                | none => simp [mkeys, mlookup]
                | some sm0 =>
                  rw [Option.getD_some]
                  cases htp : mlookup sm0 r.TableName with
                  | none => simp [mkeys, mlookup]
                  | some tm0 =>
                    rw [Option.getD_some]
                    exact h _ (mem_of_mlookup_eq idx _ sm0 hsp) _
                      (mem_of_mlookup_eq sm0 _ tm0 htp)
              exact nodup_mkeys_minsert _ _ _ hold
            · cases hsp : mlookup idx r.SchemaName with
              | none => rw [hsp] at hq1; cases hq1
              | some sm0 =>
                rw [hsp] at hq1
                rw [Option.getD_some] at hq1
                exact h _ (mem_of_mlookup_eq idx _ sm0 hsp) q hq1
          · exact h p hp1 q hq

/-- Canonicalizing the assembled schema list yields the sorted-order
assembly, name by name. -/
theorem canon_assembleSchemas (m4 : SchemaMap) (en : GoMap (List Enum)) (idx : IdxMap)
    (piT : String → List String → List String)
    (piI : String → String → List String → List String)
    (hT : ∀ s ks, (piT s ks).Perm ks) (hI : ∀ s t ks, (piI s t ks).Perm ks)
    (hWF : WF m4) (hidx : IdxWF idx) :
    ∀ ns : List String,
      Option.map (List.map canonSchema) (assembleSchemas m4 en idx piT piI ns) =
      assembleSchemas m4 en idx (fun _ ks => ssort ks) (fun _ _ ks => ssort ks) ns := by
  intro ns
  induction ns with
  | nil => rfl
  | cons n rest ih =>
    rw [assembleSchemas, assembleSchemas]
    have h1 := canonSchema_assemble m4 en idx piT piI hT hI hWF hidx n
    cases ha : assembleSchema m4 en idx piT piI n with
    | none =>
      rw [ha, Option.map_none'] at h1
      rw [← h1]
      rfl
    | some sch =>
      rw [ha, Option.map_some'] at h1
      rw [← h1]
      cases hr : assembleSchemas m4 en idx piT piI rest with
      | none =>
        rw [hr, Option.map_none'] at ih
        rw [← ih]
        rfl
      | some ss =>
        rw [hr, Option.map_some'] at ih
        rw [← ih]
        rfl

end postgres

namespace postgres

open GoMap database

/-- Canonicalizing any run of `parse` yields the run with sorted iteration
orders: the whole model is determined by the query results up to the order
of Tables within a Schema and Indexes within a Table. -/
theorem canonPOut_parse
    (schemaNames : List String) (filterTables : String → String → Bool)
    (tablesQ : Except String (List TableRow))
    (columnsQ : Except String (List ColumnRow))
    (pksQ : Except String (List PrimaryKey))
    (fksQ : Except String (List ForeignKey))
    (enumsQ : Except String (GoMap (List Enum)))
    (idxQ : Except String (List RawIndexRow))
    (piT : String → List String → List String)
    (piI : String → String → List String → List String)
    (hT : ∀ s ks, (piT s ks).Perm ks) (hI : ∀ s t ks, (piI s t ks).Perm ks) :
    canonPOut (parse schemaNames filterTables tablesQ columnsQ pksQ fksQ enumsQ idxQ piT piI) =
    parse schemaNames filterTables tablesQ columnsQ pksQ fksQ enumsQ idxQ
      (fun _ ks => ssort ks) (fun _ _ ks => ssort ks) := by
  cases tablesQ with
  | error e => rfl
  | ok tr =>
    cases columnsQ with
    | error e => rfl
    | ok cr =>
      cases pksQ with
      | error e =>
        cases hcp : columnPass filterTables (seededMap schemaNames filterTables tr) cr with
        | none => simp [parse, hcp, canonPOut]
        | some m2 => simp [parse, hcp, canonPOut]
      | ok pr =>
        cases fksQ with
        | error e =>
          cases hcp : columnPass filterTables (seededMap schemaNames filterTables tr) cr with
          | none => simp [parse, hcp, canonPOut]
          | some m2 => simp [parse, hcp, canonPOut]
        | ok fr =>
          cases enumsQ with
          | error e =>
            cases hcp : columnPass filterTables (seededMap schemaNames filterTables tr) cr with
            | none => simp [parse, hcp, canonPOut]
            | some m2 => simp [parse, hcp, canonPOut]
          | ok en =>
            rw [parse_ok_unfold, parse_ok_unfold]
            cases hb : builtMap schemaNames filterTables tr cr pr fr with
            | none => rfl
            | some m4 =>
              have hWF : WF m4 := WF_of_shape m4 _
                (builtMap_shape schemaNames filterTables tr cr pr fr m4 hb)
                (WF_seeded schemaNames filterTables tr)
              cases hqi : queryIndexes idxQ with
              | none => rfl
              | some rows =>
                have hidxWF : IdxWF (rows.foldl (indexStep filterTables m4) []) :=
                  foldl_preserve _ IdxWF
                    (fun s2 a hs => indexStep_IdxWF filterTables m4 s2 a hs) rows []
                    (fun p hp => by cases hp)
                have hA := canon_assembleSchemas m4 en
                  (rows.foldl (indexStep filterTables m4) []) piT piI hT hI hWF hidxWF
                  schemaNames
                show canonPOut (match assembleSchemas m4 en
                    (rows.foldl (indexStep filterTables m4) []) piT piI schemaNames with
                  | none => POut.panic
                  | some ss => POut.ok ⟨ss⟩) =
                  (match assembleSchemas m4 en (rows.foldl (indexStep filterTables m4) [])
                      (fun _ ks => ssort ks) (fun _ _ ks => ssort ks) schemaNames with
                  | none => POut.panic
                  | some ss => POut.ok ⟨ss⟩)
                cases ha : assembleSchemas m4 en (rows.foldl (indexStep filterTables m4) [])
                    piT piI schemaNames with
                | none =>
                  rw [ha, Option.map_none'] at hA
                  rw [← hA]
                  rfl
                | some ss =>
                  rw [ha, Option.map_some'] at hA
                  rw [← hA]
                  rfl

end postgres

/-- C2 (amended): for a fixed set of query results, the model is
deterministic up to map iteration order: any two runs — any two iteration
orders for the `dbtables` and per-table index maps, each a permutation of
the keys as in a real Go run — produce models that agree after sorting
each schema's Tables and each table's Indexes by name.  The Schemas order,
every table's Columns order, every index's column order and the Enums are
identical outright (they are untouched by the canonicalization). -/
theorem parse_canonical_deterministic
    (schemaNames : List String) (filterTables : String → String → Bool)
    (tablesQ : Except String (List postgres.TableRow))
    (columnsQ : Except String (List database.ColumnRow))
    (pksQ : Except String (List database.PrimaryKey))
    (fksQ : Except String (List database.ForeignKey))
    (enumsQ : Except String (GoMap (List database.Enum)))
    (idxQ : Except String (List postgres.RawIndexRow))
    (piT piT2 : String → List String → List String)
    (piI piI2 : String → String → List String → List String)
    (hT : ∀ s ks, (piT s ks).Perm ks) (hI : ∀ s t ks, (piI s t ks).Perm ks)
    (hT2 : ∀ s ks, (piT2 s ks).Perm ks) (hI2 : ∀ s t ks, (piI2 s t ks).Perm ks) :
    postgres.canonPOut (postgres.parse schemaNames filterTables tablesQ columnsQ pksQ fksQ
      enumsQ idxQ piT piI) =
    postgres.canonPOut (postgres.parse schemaNames filterTables tablesQ columnsQ pksQ fksQ
      enumsQ idxQ piT2 piI2) :=
  (postgres.canonPOut_parse schemaNames filterTables tablesQ columnsQ pksQ fksQ enumsQ idxQ
    piT piI hT hI).trans
  (postgres.canonPOut_parse schemaNames filterTables tablesQ columnsQ pksQ fksQ enumsQ idxQ
    piT2 piI2 hT2 hI2).symm

/-- Witness for C2 (amended): the two runs of the counterexample — whose
raw outputs differ — agree after canonicalization. -/
theorem parse_canonical_deterministic_witness :
    postgres.canonPOut (postgres.parse ["public"] fixtures.filterAll
      (.ok [fixtures.usersTR, fixtures.ordersTR]) (.ok []) (.ok []) (.ok []) (.ok []) (.ok [])
      fixtures.idT fixtures.idI) =
    postgres.canonPOut (postgres.parse ["public"] fixtures.filterAll
      (.ok [fixtures.usersTR, fixtures.ordersTR]) (.ok []) (.ok []) (.ok []) (.ok []) (.ok [])
      fixtures.revT fixtures.idI) :=
  parse_canonical_deterministic ["public"] fixtures.filterAll
    (.ok [fixtures.usersTR, fixtures.ordersTR]) (.ok []) (.ok []) (.ok []) (.ok []) (.ok [])
    fixtures.idT fixtures.revT fixtures.idI fixtures.idI
    (fun _ ks => List.Perm.refl ks) (fun _ _ ks => List.Perm.refl ks)
    (fun _ ks => ks.reverse_perm) (fun _ _ ks => List.Perm.refl ks)
